import Mathlib

/-!
# Verification of the `lulz` reactive dataflow engine

Shallow embedding of the core of the `catpea/lulz` repository:

* the property helpers `getProperty` / `setProperty` (src/nodes.js and
  src/red-lib.js carry identical copies);
* the worker-integrated adapters `worker` and `parallelMap`
  (src/workers.js);
* the task queue / worker pool `taskQueue` (src/workers.js), modelled as
  a labelled transition system over its bookkeeping state;
* the 2.0 flow compiler `flow` (src/flow.js of the 2.0 engine: series
  by default, parallel when bracketed — the semantics documented in the
  README and exercised by the 2.0 test suite).

JavaScript objects and `Map`s are modelled as association lists whose
update semantics mirror property assignment / `Map.set`: updating an
existing key keeps its position, a new key is appended at the end.
-/

namespace Lulz

/-- Association-list lookup (first binding wins; JavaScript objects and
`Map`s have unique keys). `none` models `undefined`. -/
def findA {κ β : Type} [DecidableEq κ] : List (κ × β) → κ → Option β
  | [], _ => none
  | (k', v) :: rest, k => if k' = k then some v else findA rest k

/-- Association-list update, mirroring `obj[k] = v` / `{...obj, k: v}` /
`Map.set(k, v)`: an existing key keeps its position and gets the new
value, a missing key is appended at the end. -/
def setA {κ β : Type} [DecidableEq κ] : List (κ × β) → κ → β → List (κ × β)
  | [], k, v => [(k, v)]
  | (k', v') :: rest, k, v =>
    if k' = k then (k, v) :: rest else (k', v') :: setA rest k v

/-- Association-list removal of the (unique) binding of a key,
mirroring `Map.delete(k)` / `delete obj[k]`; no-op if absent. -/
def eraseA {κ β : Type} [DecidableEq κ] : List (κ × β) → κ → List (κ × β)
  | [], _ => []
  | (k', v) :: rest, k => if k' = k then rest else (k', v) :: eraseA rest k

/-- Remove the first occurrence of an element, mirroring
`arr.splice(arr.indexOf(x), 1)` guarded by `indexOf > -1`. -/
def removeFirst {β : Type} [DecidableEq β] : List β → β → List β
  | [], _ => []
  | x :: rest, y => if x = y then rest else x :: removeFirst rest y

/-- JavaScript values as they appear in packets, task data and nested
property objects: `undefined`, `null`, numbers, strings, arrays and
plain objects (ordered field lists).  At lookup sites an *absent*
property is the `Option.none` of `findA`, which also reads as
`undefined`. -/
inductive JSVal where
  | vundef : JSVal
  | vnull : JSVal
  | vnum : Int → JSVal
  | vstr : String → JSVal
  | varr : List JSVal → JSVal
  | vobj : List (String × JSVal) → JSVal

/-- Fields of an object; also the model of a packet (an open record). -/
abbrev Fields := List (String × JSVal)

/-- `path.split('.')` from the source.  JavaScript `split` with a
single-character separator splits between occurrences of that character
(`''.split('.') = ['']`, `'a..b'.split('.') = ['a','','b']`), which is
exactly character-list `splitOn`. -/
def pathParts (path : String) : List String :=
  (path.data.splitOn '.').map String.mk

/-- The walking loop of `getProperty`: `current = current[part]` for
each part, returning `undefined` as soon as `current` is
`null`/`undefined`.  Property access on a primitive or an array yields
`undefined` here (built-in properties such as `length`, and numeric
array indexing, are not modelled; no claim exercises them). -/
def getPropParts : Option JSVal → List String → Option JSVal
  | cur, [] => cur
  | none, _ :: _ => none
  | some JSVal.vundef, _ :: _ => none
  | some JSVal.vnull, _ :: _ => none
  | some (JSVal.vobj fs), p :: rest => getPropParts (findA fs p) rest
  | some (JSVal.vnum _), _ :: _ => none
  | some (JSVal.vstr _), _ :: _ => none
  | some (JSVal.varr _), _ :: _ => none

/--
```js
function getProperty(obj, path) {
  if (!path) return obj;
  const parts = path.split('.');
  let current = obj;
  for (const part of parts) {
    if (current === null || current === undefined) return undefined;
    current = current[part];
  }
  return current;
}
```
(src/nodes.js; src/red-lib.js carries the identical arrow-function copy.)
-/
def getProperty (obj : JSVal) (path : String) : Option JSVal :=
  if path = "" then some obj else getPropParts (some obj) (pathParts path)

/-- `if (current[part] === undefined) current[part] = {}` — the child
the walk continues into: the present value, or a fresh `{}`. -/
def childOf (fs : Fields) (p : String) : JSVal :=
  (findA fs p).getD (JSVal.vobj [])

/-- The walking loop of `setProperty`, returning the updated root
object (the original mutates `obj` in place; the functional model
returns the new root).  `none` models the `TypeError` strict mode
raises when the walk writes through a non-object (including `null`,
primitives and — unlike real JS, where arrays accept property writes —
arrays; no claim exercises an array on a path). -/
def setPropParts : JSVal → List String → JSVal → Option JSVal
  | JSVal.vobj fs, [last], v => some (JSVal.vobj (setA fs last v))
  | JSVal.vobj fs, p :: q :: rest, v =>
    match setPropParts (childOf fs p) (q :: rest) v with
    | none => none
    | some child' => some (JSVal.vobj (setA fs p child'))
  | obj, [], _ => some obj
  | _, _ :: _, _ => none

/--
```js
function setProperty(obj, path, value) {
  if (!path) return;
  const parts = path.split('.');
  let current = obj;
  for (let i = 0; i < parts.length - 1; i++) {
    const part = parts[i];
    if (current[part] === undefined) current[part] = {};
    current = current[part];
  }
  current[parts[parts.length - 1]] = value;
}
```
(src/nodes.js; src/red-lib.js carries the identical arrow-function copy.)
-/
def setProperty (obj : JSVal) (path : String) (v : JSVal) : Option JSVal :=
  if path = "" then some obj else setPropParts obj (pathParts path) v

/-- "Already-present intermediate segments are all objects": walking
all but the last path segment, every segment that is present must map
to a plain object (absent segments are fine — `setProperty` creates
them as `{}`). -/
def intermediatesOk (fs : Fields) : List String → Bool
  | [] => true
  | [_] => true
  | p :: rest =>
    match findA fs p with
    | none => true
    | some (JSVal.vobj fs') => intermediatesOk fs' rest
    | some _ => false

/-- A worker handler as configured on a task queue: a function of the
task data that either returns a result value or raises a failure
(whose message is captured and reported, never propagated). -/
abbrev Handler := JSVal → Except String JSVal

/-- The task data submitted by the per-packet worker node:
`queue.submit({ data: packet.payload ?? packet })` — the payload, or
the whole packet when the payload is absent, `undefined` or `null`. -/
def submittedData (p : Fields) : JSVal :=
  match findA p "payload" with
  | none => JSVal.vobj p
  | some JSVal.vundef => JSVal.vobj p
  | some JSVal.vnull => JSVal.vobj p
  | some v => v

/-- The per-packet adapter's `result` callback: looks up the original
packet by task id and forwards `send({ ...original, payload: result })`. -/
def workerOnResult (original : Fields) (result : JSVal) : Fields :=
  setA original "payload" result

/-- The per-packet adapter's `error` callback: looks up the original
packet by task id and forwards `send({ ...original, error })`. -/
def workerOnError (original : Fields) (error : JSVal) : Fields :=
  setA original "error" error

/-- One packet through the per-packet worker adapter (`worker` in
src/workers.js): its payload is submitted as one task, the configured
handler runs in a worker thread, and the correlated callback rebuilds
and forwards the outgoing packet. -/
def workerProcess (h : Handler) (p : Fields) : Fields :=
  match h (submittedData p) with
  | Except.ok r => workerOnResult p r
  | Except.error e => workerOnError p (JSVal.vstr e)

/-- The `n ↦ n*n` worker handler of the spec's example (raises on
non-numeric data, as `n * n` would be `NaN`-like nonsense there). -/
def squareHandler : Handler := fun v =>
  match v with
  | JSVal.vnum n => Except.ok (JSVal.vnum (n * n))
  | _ => Except.error "not a number"

/-- `const items = Array.isArray(packet.payload) ? packet.payload :
[packet.payload];` of `parallelMap`. -/
def pmapItems (pkt : Fields) : List JSVal :=
  match findA pkt "payload" with
  | some (JSVal.varr xs) => xs
  | some v => [v]
  | none => [JSVal.vundef]

/-- `items.map((_, i) => results.get(i + 1))` — the output sequence
rebuilt in original index order (`results.get` yields `undefined` for
a missing id; an all-results-present table never hits that case). -/
def orderedResults (n : Nat) (results : List (Nat × JSVal)) : List JSVal :=
  (List.range n).map (fun i => (findA results (i + 1)).getD JSVal.vundef)

/-- State of one `parallelMap` batch: the index-keyed results table
(a JS `Map`) and the packets sent so far. -/
structure PMapState where
  results : List (Nat × JSVal)
  sent : List Fields

/-- The adapter's `handleResult` callback for one `{id, result}`
message: record the result under its id; once the table holds all
`expectedCount` results, rebuild the sequence in index order and send
`{...packet, payload: ordered}`. -/
def handleResult (expectedCount : Nat) (pkt : Fields) (st : PMapState)
    (msg : Nat × JSVal) : PMapState :=
  let results' := setA st.results msg.1 msg.2
  if results'.length = expectedCount then
    { results := results',
      sent := st.sent ++
        [setA pkt "payload" (JSVal.varr (orderedResults expectedCount results'))] }
  else
    { results := results', sent := st.sent }

/-- A run of one batch through `parallelMap`: the N payload items are
submitted as tasks `{id: i + 1, data: item}`; the pool completes them
in some order (`order` lists the task ids in completion order), each
completion delivering `{id, result: fn(items[id - 1])}` to
`handleResult`, starting from a cleared table. -/
def pmapRun (f : JSVal → JSVal) (pkt : Fields) (order : List Nat) : PMapState :=
  order.foldl
    (fun st id => handleResult (pmapItems pkt).length pkt st
      (id, f (((pmapItems pkt).get? (id - 1)).getD JSVal.vundef)))
    ⟨[], []⟩

/-- The plain `x ↦ x²` mapping function of the spec's batch example. -/
def squareFn : JSVal → JSVal := fun v =>
  match v with
  | JSVal.vnum n => JSVal.vnum (n * n)
  | other => other

/-- A task as queued: `{id, data}` (`submit` wraps bare data). -/
structure Task where
  id : Nat
  data : JSVal

/-- Observable events the queue emits. -/
inductive QEvent where
  | result (id : Nat)
  | errorEv (id : Nat)
  | drain
  | idle

/-- The `taskQueue` bookkeeping state (src/workers.js).  Mutable
closure variables of `taskQueue` are fields; in addition `busyW` makes
explicit which live worker holds which dispatched task (in the source
this lives in the posted message / the worker's run state), `wcount`
is the configured pool size, `nextWorker` feeds fresh ids to
`createWorker`, and `autoIds` is a ghost trace of the counter-assigned
task ids. -/
structure QState where
  pending : List Task
  running : List (Nat × Nat)
  pool : List Nat
  busyW : List (Nat × Task)
  taskIdCounter : Nat
  totalSubmitted : Nat
  totalCompleted : Nat
  wcount : Nat
  nextWorker : Nat
  autoIds : List Nat

/-- The initial state: `for (let i = 0; i < workerCount; i++)
pool.push(createWorker());`. -/
def initQ (n : Nat) : QState :=
  { pending := [], running := [], pool := List.range n, busyW := [],
    taskIdCounter := 0, totalSubmitted := 0, totalCompleted := 0,
    wcount := n, nextWorker := n, autoIds := [] }

/-- `processNext(worker)`: shift the oldest pending task, mark the
worker busy, record the id as in-flight, and post the task to it. -/
def processNext (s : QState) (w : Nat) : QState :=
  match s.pending with
  | [] => s
  | t :: rest =>
    { s with pending := rest,
             running := setA s.running t.id w,
             busyW := s.busyW ++ [(w, t)] }

/-- `tryProcess()`: `while (pending.length > 0 && pool.length > 0)
{ const worker = pool.pop(); processNext(worker); }` — `pop` takes the
last pooled worker, `processNext` shifts the oldest pending task. -/
def tryProcess (s : QState) : QState :=
  if h : 0 < s.pending.length ∧ 0 < s.pool.length then
    let w := s.pool.getLast (List.length_pos.mp h.2)
    let t := s.pending.head (List.length_pos.mp h.1)
    tryProcess { s with pending := s.pending.tail,
                        pool := s.pool.dropLast,
                        running := setA s.running t.id w,
                        busyW := s.busyW ++ [(w, t)] }
  else s
termination_by s.pending.length
decreasing_by
  simp [List.length_tail]
  omega

/-- `queue.submit(task)` up to (not including) the dispatch attempt:
`const id = task.id ?? ++taskIdCounter; totalSubmitted++;
pending.push(taskObj);` returning the id.  A caller-supplied id is
kept; otherwise the incremented counter is used (and ghost-traced). -/
def submitCore (s : QState) (tid : Option Nat) (d : JSVal) : QState × Nat :=
  match tid with
  | some i =>
    ({ s with totalSubmitted := s.totalSubmitted + 1,
              pending := s.pending ++ [⟨i, d⟩] }, i)
  | none =>
    ({ s with taskIdCounter := s.taskIdCounter + 1,
              autoIds := s.autoIds ++ [s.taskIdCounter + 1],
              totalSubmitted := s.totalSubmitted + 1,
              pending := s.pending ++ [⟨s.taskIdCounter + 1, d⟩] },
      s.taskIdCounter + 1)

/-- `queue.submit(task)`: enqueue, then `tryProcess()`, and return the
id synchronously. -/
def submitQ (s : QState) (tid : Option Nat) (d : JSVal) : QState × Nat :=
  ((tryProcess (submitCore s tid d).1), (submitCore s tid d).2)

/-- `queue.submitAll(tasks)`: `tasks.map(t => queue.submit(t))`. -/
def submitAllQ (s : QState) : List (Option Nat × JSVal) → QState × List Nat
  | [] => (s, [])
  | (tid, d) :: rest =>
    let (s1, i) := submitQ s tid d
    let (s2, is) := submitAllQ s1 rest
    (s2, i :: is)

/-- The worker `message` handler for worker `w`, which is busy on some
task and reports either a result or a handler failure (`isErr`):
un-busy the worker, drop the in-flight record, count the completion,
emit `result`/`error`, then either feed the worker the next pending
task or return it to the pool — checking `drain` and `idle` there. -/
def onMessage (s : QState) (w : Nat) (isErr : Bool) : QState × List QEvent :=
  match findA s.busyW w with
  | none => (s, [])
  | some t =>
    let s1 : QState :=
      { s with busyW := eraseA s.busyW w,
               running := eraseA s.running t.id,
               totalCompleted := s.totalCompleted + 1 }
    let ev := if isErr then QEvent.errorEv t.id else QEvent.result t.id
    match s1.pending with
    | _ :: _ => (processNext s1 w, [ev])
    | [] =>
      let s2 : QState := { s1 with pool := s1.pool ++ [w] }
      (s2, [ev]
        ++ (if s2.totalCompleted = s2.totalSubmitted then [QEvent.drain] else [])
        ++ (if s2.pool.length = s2.wcount then [QEvent.idle] else []))

/-- The worker `error` handler (execution fault of a live worker):
`const idx = pool.indexOf(worker); if (idx > -1) pool.splice(idx, 1);
pool.push(createWorker());` — the dead worker can no longer deliver a
message (it leaves `busyW`), its in-flight record in `running` is left
stale, and a fresh replacement joins the pool. -/
def onFault (s : QState) (w : Nat) : QState :=
  { s with pool := removeFirst s.pool w ++ [s.nextWorker],
           busyW := eraseA s.busyW w,
           nextWorker := s.nextWorker + 1 }

/-- `queue.drain()`'s immediate-resolution test:
`totalCompleted === totalSubmitted && pending.length === 0`. -/
def drainResolvesNow (s : QState) : Bool :=
  s.totalCompleted == s.totalSubmitted && s.pending.isEmpty

/-- One labelled transition of the queue: a submission, a message from
a busy worker (with the handler outcome), or an execution fault of a
live worker. -/
inductive QStep : QState → List QEvent → QState → Prop where
  | submit (s : QState) (tid : Option Nat) (d : JSVal) :
      QStep s [] (submitQ s tid d).1
  | message (s : QState) (w : Nat) (isErr : Bool)
      (h : (findA s.busyW w).isSome) :
      QStep s (onMessage s w isErr).2 (onMessage s w isErr).1
  | fault (s : QState) (w : Nat)
      (h : w ∈ s.pool ∨ (findA s.busyW w).isSome) :
      QStep s [] (onFault s w)

/-- States reachable from a fresh `taskQueue({workers: n, handler})`. -/
inductive QReach (n : Nat) : QState → Prop where
  | init : QReach n (initQ n)
  | step {s : QState} {evs : List QEvent} {s' : QState} :
      QReach n s → QStep s evs s' → QReach n s'

/-- Finitely many transitions, accumulating events. -/
inductive QSteps : QState → List QEvent → QState → Prop where
  | refl (s : QState) : QSteps s [] s
  | head {s : QState} {evs : List QEvent} {s' : QState} {evs' : List QEvent}
      {s'' : QState} :
      QStep s evs s' → QSteps s' evs' s'' → QSteps s (evs ++ evs') s''

/-- Well-formedness of the queue bookkeeping, invariant over all
reachable states: busy workers are distinct, pooled workers are
distinct and not busy, worker ids stay below the spawn counter, the
live worker count equals the configured pool size, completions never
outrun submissions (in-flight and queued tasks account for the gap, at
most — a fault may lose an in-flight task), and ghost-traced auto ids
never exceed the task id counter. -/
def QWF (n : Nat) (s : QState) : Prop :=
  (s.busyW.map Prod.fst).Nodup ∧
  s.pool.Nodup ∧
  (∀ w ∈ s.pool, w ∉ s.busyW.map Prod.fst) ∧
  (∀ w ∈ s.pool, w < s.nextWorker) ∧
  (∀ w ∈ s.busyW.map Prod.fst, w < s.nextWorker) ∧
  s.pool.length + s.busyW.length = n ∧
  s.wcount = n ∧
  s.totalCompleted + s.pending.length + s.busyW.length ≤ s.totalSubmitted ∧
  (∀ j ∈ s.autoIds, j ≤ s.taskIdCounter)


/-! ### The 2.0 flow compiler

The graph engine of src/flow.js (2.0): `makeNode` wraps a processing
function with an ordered, deduplicated set of downstream destinations;
`flow` walks the graph lines, resolving sources/destinations and wiring
the interior as a series chain by default or a parallel block for a
single bracketed array.  A processing ("inner") function is modelled by
the ordered list of packets it passes to `send` (`α → List α`; a pure
transform `f` sends exactly `[f p]`).  Factories ("outer" functions)
are invoked to processors before wiring (`prepareFunction`) and are
modelled by the resulting processors; `series()`/`parallel()` marker
arrays, embedded sub-flows, producers' start-time activation and the
EventEmitter plumbing of the returned app object are not modelled —
no claim needs them. -/

/-- A compiled node: its processing function and its ordered,
deduplicated outputs (`new Set()` preserving insertion order).
`Option.none` as a destination is a connected `undefined` (source code
`connect(dest)` with an unresolved `dest`): dispatching to it would
fail at runtime; no theorem runs such a net. -/
structure FlowNode (α : Type) where
  proc : α → List α
  outs : List (Option Nat)

/-- A compiled network: the nodes (indexed by creation order) and the
name → node memo table of pipes (`app._pipes`). -/
structure FlowNet (α : Type) where
  nodes : List (FlowNode α)
  pipes : List (String × Nat)

/-- `makeNode(name, fn)`: fresh node with no outputs (names are only
debug labels and are not modelled). -/
def makeNode {α : Type} (net : FlowNet α) (proc : α → List α) :
    FlowNet α × Nat :=
  ({ net with nodes := net.nodes ++ [⟨proc, []⟩] }, net.nodes.length)

/-- `outputs.add(next)`: insertion-ordered set add. -/
def addOut (outs : List (Option Nat)) (j : Option Nat) : List (Option Nat) :=
  if j ∈ outs then outs else outs ++ [j]

/-- Modify the n-th element of a list in place. -/
def modNth {β : Type} : List β → Nat → (β → β) → List β
  | [], _, _ => []
  | x :: xs, 0, f => f x :: xs
  | x :: xs, n + 1, f => x :: modNth xs n f

/-- `node.connect(next)`: record `next` among node `i`'s outputs. -/
def connect {α : Type} (net : FlowNet α) (i : Nat) (j : Option Nat) :
    FlowNet α :=
  { net with
    nodes := modNth net.nodes i (fun nd => { nd with outs := addOut nd.outs j }) }

/-- A pipe's processing function `(send, packet) => {
_originalEmit(name, packet); send(packet); }`: one pass-through send;
the listener notification is the trace event recorded at the pipe's
own node by the run semantics. -/
def pipeProc {α : Type} : α → List α := fun p => [p]

/-- `getPipe(name)`: the memoized pipe node, created on first
reference. -/
def getPipe {α : Type} (net : FlowNet α) (name : String) :
    FlowNet α × Nat :=
  match findA net.pipes name with
  | some i => (net, i)
  | none =>
    let r := makeNode net (pipeProc (α := α))
    ({ r.1 with pipes := r.1.pipes ++ [(name, r.2)] }, r.2)

/-- A graph-line element: a pipe name (string), an inner processor
function, a plain nested array of functions, or a value of an
unrecognized type (neither string, function, array nor flow — e.g. a
number or `null`). -/
inductive FlowElem (α : Type) where
  | pipe (name : String)
  | fn (f : α → List α)
  | arr (fs : List (α → List α))
  | junk

/-- A graph line: an array of elements, or a non-array value. -/
inductive FlowLine (α : Type) where
  | line (elems : List (FlowElem α))
  | notArray

/-- `prepareFunction` as applied to whatever sits in a node position:
a function is used as the processor; wiring a non-function makes a
node whose invocation would throw at runtime — modelled as sending
nothing (no theorem invokes such a node). -/
def elemProc {α : Type} : FlowElem α → (α → List α)
  | FlowElem.fn f => f
  | _ => fun _ => []

/-- Source classification: a string resolves through `getPipe`; a
function becomes a producer's passthrough node (`(send, packet) =>
send(packet)`; the deferred producer binding itself is not modelled);
anything else leaves `source` undefined. -/
def resolveSource {α : Type} (net : FlowNet α) :
    FlowElem α → FlowNet α × Option Nat
  | FlowElem.pipe name =>
    let r := getPipe net name
    (r.1, some r.2)
  | FlowElem.fn _ =>
    let r := makeNode net (pipeProc (α := α))
    (r.1, some r.2)
  | _ => (net, none)

/-- Destination classification: a string resolves through `getPipe`; a
function becomes a terminal sink node; anything else leaves `dest`
undefined. -/
def resolveDest {α : Type} (net : FlowNet α) :
    FlowElem α → FlowNet α × Option Nat
  | FlowElem.pipe name =>
    let r := getPipe net name
    (r.1, some r.2)
  | FlowElem.fn f =>
    let r := makeNode net f
    (r.1, some r.2)
  | _ => (net, none)

/-- The node-creation pass of `buildSeries` (and of `buildParallel`,
which creates its nodes the same way before the caller wires them):
one node per element, returning the created indices in order. -/
def addSeriesNodes {α : Type} :
    FlowNet α → List (FlowElem α) → FlowNet α × List Nat
  | net, [] => (net, [])
  | net, e :: es =>
    let r := makeNode net (elemProc e)
    let r2 := addSeriesNodes r.1 es
    (r2.1, r.2 :: r2.2)

/-- The chain pass of `buildSeries`:
`for (i = 0; i < nodes.length - 1; i++) nodes[i].connect(nodes[i+1])`. -/
def chainConnect {α : Type} : FlowNet α → List Nat → FlowNet α
  | net, i :: j :: rest => chainConnect (connect net i (some j)) (j :: rest)
  | net, _ => net

/-- `buildSeries(fns)`: empty input yields a single passthrough node as
both ends; otherwise the nodes are created consecutively and chained,
the first being `input` and the last `output` (indices
`net.nodes.length` and `net.nodes.length + fns.length - 1` since
creation appends consecutively). -/
def buildSeries {α : Type} (net : FlowNet α) (fs : List (FlowElem α)) :
    FlowNet α × Nat × Nat :=
  match fs with
  | [] =>
    let r := makeNode net (pipeProc (α := α))
    (r.1, r.2, r.2)
  | _ :: _ =>
    let r := addSeriesNodes net fs
    (chainConnect r.1 r.2, net.nodes.length,
      net.nodes.length + fs.length - 1)

/-- The wiring loop after `buildParallel`: `for (const node of nodes) {
if (source.connect) source.connect(node); if (node.connect)
node.connect(dest); }` for a resolved source. -/
def parallelWire {α : Type} (net : FlowNet α) (src : Nat)
    (dst : Option Nat) : List Nat → FlowNet α
  | [] => net
  | k :: rest => parallelWire (connect (connect net src (some k)) k dst) src dst rest

def isArrElem {α : Type} : FlowElem α → Bool
  | FlowElem.arr _ => true
  | _ => false

/-- One iteration of the `for (const line of graph)` loop of `flow`.
`none` models a thrown `TypeError`: accessing `.connect` on an
undefined `source` throws (note an unresolved *destination* merely
wires `undefined` and does not throw, and an empty parallel block
never touches `source`).  Lines that are not arrays or have fewer than
two elements are skipped.  In the default series branch, nested
array elements are collected as parallel blocks but then filtered out
before `buildSeries` — i.e. dropped. -/
def compileLine {α : Type} (net : FlowNet α) :
    FlowLine α → Option (FlowNet α)
  | FlowLine.notArray => some net
  | FlowLine.line elems =>
    if h : elems.length < 2 then some net
    else
      match elems with
      | [] => some net
      | e :: rest =>
        let last := (e :: rest).getLast (by simp)
        let middle := rest.dropLast
        let r1 := resolveSource net e
        let r2 := resolveDest r1.1 last
        match middle with
        | [] =>
          match r1.2 with
          | none => none
          | some i => some (connect r2.1 i r2.2)
        | [FlowElem.arr fs] =>
          let r3 := addSeriesNodes r2.1 (fs.map FlowElem.fn)
          match fs, r1.2 with
          | [], _ => some r3.1
          | _ :: _, none => none
          | _ :: _, some i => some (parallelWire r3.1 i r2.2 r3.2)
        | _ =>
          let allFns := middle.filter (fun el => !(isArrElem el))
          let r3 := buildSeries r2.1 allFns
          match r1.2 with
          | none => none
          | some i => some (connect (connect r3.1 i (some r3.2.1)) r3.2.2 r2.2)

/-- The compile loop over all graph lines; a thrown `TypeError` aborts
`flow` (remaining lines are not processed). -/
def compileGraph {α : Type} :
    FlowNet α → List (FlowLine α) → Option (FlowNet α)
  | net, [] => some net
  | net, l :: rest =>
    match compileLine net l with
    | none => none
    | some net' => compileGraph net' rest

def emptyNet {α : Type} : FlowNet α := ⟨[], []⟩

/-- Compile a whole graph from scratch. -/
def flowCompile {α : Type} (g : List (FlowLine α)) : Option (FlowNet α) :=
  compileGraph emptyNet g

/-- The synchronous push dispatch: `receive` invokes the node's
processing function with `send`, and each `send(q)` synchronously
invokes `receive` on every connected destination in connection order.
The trace records every receive event `(node, packet)` — at a pipe
node this is exactly the external-listener notification, which happens
before the onward `send`.  `fuel` bounds the recursion depth; any
fuel exceeding the longest path of the (acyclic) compiled nets below
is enough, and cyclic graphs — where the source recurses unboundedly —
are out of scope. -/
def runNode {α : Type} (net : FlowNet α) : Nat → Nat → α → List (Nat × α)
  | 0, _, _ => []
  | fuel + 1, i, p =>
    match net.nodes.get? i with
    | none => []
    | some nd =>
      (i, p) :: (nd.proc p).bind (fun q =>
        nd.outs.bind (fun j? =>
          match j? with
          | some j => runNode net fuel j q
          | none => []))

/-- The packets observed at node `i` (for a pipe: the packets every
listener registered against its name is notified of). -/
def observedAt {α : Type} (trace : List (Nat × α)) (i : Nat) : List α :=
  (trace.filter (fun e => e.1 == i)).map Prod.snd

/-- A pure transform wired as a processor: sends exactly one packet. -/
def pureProc {α : Type} (f : α → α) : α → List α := fun p => [f p]

/-- The receive events of a chain of pure transforms starting at node
`start` on input `p`: each node sees the fold of its predecessors. -/
def chainTrace {α : Type} (start : Nat) (p : α) : List (α → α) → List (Nat × α)
  | [] => []
  | f :: fs => (start, p) :: chainTrace (start + 1) (f p) fs

/-- `[src, t1, ..., tN, dst]` with a flat interior of pure transforms. -/
def seriesLine {α : Type} (src dst : String) (ts : List (α → α)) :
    FlowLine α :=
  FlowLine.line (FlowElem.pipe src ::
    (ts.map (fun f => FlowElem.fn (pureProc f)) ++ [FlowElem.pipe dst]))

/-- `[src, [t1, ..., tN], dst]` with a single bracketed interior. -/
def parallelLine {α : Type} (src dst : String) (ts : List (α → α)) :
    FlowLine α :=
  FlowLine.line [FlowElem.pipe src, FlowElem.arr (ts.map pureProc),
    FlowElem.pipe dst]

/-- The receive events of a parallel fan-out over branch nodes
`c, c+1, ...` on input `p`: each branch node sees the unmodified
packet, and the destination pipe (node 1) sees each branch output,
in branch order. -/
def fanTrace {α : Type} (p : α) : Nat → List (α → α) → List (Nat × α)
  | _, [] => []
  | c, f :: fs => (c, p) :: (1, f p) :: fanTrace p (c + 1) fs

/-- The pipe-registry invariant of a net: each name is registered at
most once (`getPipe` memoizes), no two names share a node (each
registration creates a fresh node), and every registered node exists. -/
def PipesWF {α : Type} (net : FlowNet α) : Prop :=
  (net.pipes.map Prod.fst).Nodup ∧ (net.pipes.map Prod.snd).Nodup ∧
  ∀ e ∈ net.pipes, e.2 < net.nodes.length

/-! ## Theorems -/

@[simp] theorem findA_nil {κ β : Type} [DecidableEq κ] (k : κ) :
    findA ([] : List (κ × β)) k = none := rfl

theorem findA_setA_self {κ β : Type} [DecidableEq κ]
    (l : List (κ × β)) (k : κ) (v : β) :
    findA (setA l k v) k = some v := by
  induction l with
  | nil => simp [setA, findA]
  | cons hd tl ih =>
    obtain ⟨k', v'⟩ := hd
    by_cases h : k' = k
    · simp [setA, findA, h]
    · simp [setA, findA, h, ih]

theorem findA_setA_ne {κ β : Type} [DecidableEq κ]
    (l : List (κ × β)) (k k' : κ) (v : β)
    (hne : k' ≠ k) : findA (setA l k v) k' = findA l k' := by
  induction l with
  | nil => simp [setA, findA, Ne.symm hne]
  | cons hd tl ih =>
    obtain ⟨k₀, v₀⟩ := hd
    by_cases h : k₀ = k
    · subst h
      simp [setA, findA, Ne.symm hne]
    · by_cases h' : k₀ = k'
      · simp [setA, findA, h, h', hne]
      · simp [setA, findA, h, h', ih]

theorem setA_append_of_absent {κ β : Type} [DecidableEq κ]
    (l : List (κ × β)) (k : κ) (v : β)
    (h : findA l k = none) : setA l k v = l ++ [(k, v)] := by
  induction l with
  | nil => simp [setA]
  | cons hd tl ih =>
    obtain ⟨k', v'⟩ := hd
    by_cases hk : k' = k
    · simp [findA, hk] at h
    · simp [findA, hk] at h
      simp [setA, hk, ih h]

theorem eraseA_of_absent {κ β : Type} [DecidableEq κ]
    (l : List (κ × β)) (k : κ)
    (h : findA l k = none) : eraseA l k = l := by
  induction l with
  | nil => rfl
  | cons hd tl ih =>
    obtain ⟨k', v'⟩ := hd
    by_cases hk : k' = k
    · simp [findA, hk] at h
    · simp [findA, hk] at h
      simp [eraseA, hk, ih h]

theorem eraseA_length_of_found {κ β : Type} [DecidableEq κ]
    (l : List (κ × β)) (k : κ) (v : β)
    (h : findA l k = some v) : (eraseA l k).length + 1 = l.length := by
  induction l with
  | nil => simp [findA] at h
  | cons hd tl ih =>
    obtain ⟨k', v'⟩ := hd
    by_cases hk : k' = k
    · simp [eraseA, hk]
    · simp [findA, hk] at h
      simp [eraseA, hk, ih h]


theorem findA_eq_none_iff {κ β : Type} [DecidableEq κ]
    (l : List (κ × β)) (k : κ) :
    findA l k = none ↔ k ∉ l.map Prod.fst := by
  induction l with
  | nil => simp [findA]
  | cons hd tl ih =>
    obtain ⟨k', v⟩ := hd
    by_cases h : k' = k
    · simp [findA, h]
    · simp [findA, h, ih, Ne.symm h]

theorem findA_append_left {κ β : Type} [DecidableEq κ]
    (l1 l2 : List (κ × β)) (k : κ) (v : β)
    (h : findA l1 k = some v) : findA (l1 ++ l2) k = some v := by
  induction l1 with
  | nil => simp [findA] at h
  | cons hd tl ih =>
    obtain ⟨k', v'⟩ := hd
    by_cases hk : k' = k
    · simp [findA, hk] at h ⊢
      exact h
    · simp [findA, hk] at h ⊢
      exact ih h

theorem findA_append_right {κ β : Type} [DecidableEq κ]
    (l1 l2 : List (κ × β)) (k : κ)
    (h : findA l1 k = none) : findA (l1 ++ l2) k = findA l2 k := by
  induction l1 with
  | nil => simp
  | cons hd tl ih =>
    obtain ⟨k', v'⟩ := hd
    by_cases hk : k' = k
    · simp [findA, hk] at h
    · simp [findA, hk] at h ⊢
      exact ih h

theorem findA_mem {κ β : Type} [DecidableEq κ]
    (l : List (κ × β)) (k : κ) (v : β)
    (h : findA l k = some v) : (k, v) ∈ l := by
  induction l with
  | nil => simp [findA] at h
  | cons hd tl ih =>
    obtain ⟨k', v'⟩ := hd
    by_cases hk : k' = k
    · subst hk
      simp [findA] at h
      simp [h]
    · simp [findA, hk] at h
      simp [ih h]

theorem findA_of_mem_nodup {κ β : Type} [DecidableEq κ]
    (l : List (κ × β)) (k : κ) (v : β)
    (hnd : (l.map Prod.fst).Nodup) (hmem : (k, v) ∈ l) :
    findA l k = some v := by
  induction l with
  | nil => simp at hmem
  | cons hd tl ih =>
    obtain ⟨k', v'⟩ := hd
    simp only [List.map_cons, List.nodup_cons] at hnd
    rcases List.mem_cons.mp hmem with heq | htl
    · cases heq
      simp [findA]
    · have hk : k' ≠ k := by
        intro h
        subst h
        exact hnd.1 (List.mem_map.mpr ⟨(k', v), htl, rfl⟩)
      simp [findA, hk]
      exact ih hnd.2 htl

theorem removeFirst_sublist {β : Type} [DecidableEq β] (l : List β) (x : β) :
    (removeFirst l x).Sublist l := by
  induction l with
  | nil => simp [removeFirst]
  | cons a tl ih =>
    by_cases h : a = x
    · simp [removeFirst, h]
    · simp [removeFirst, h]
      exact ih

theorem removeFirst_of_not_mem {β : Type} [DecidableEq β]
    (l : List β) (x : β) (h : x ∉ l) : removeFirst l x = l := by
  induction l with
  | nil => rfl
  | cons a tl ih =>
    simp only [List.mem_cons, not_or] at h
    simp [removeFirst, Ne.symm h.1, ih h.2]

theorem length_removeFirst_of_mem {β : Type} [DecidableEq β]
    (l : List β) (x : β) (h : x ∈ l) :
    (removeFirst l x).length + 1 = l.length := by
  induction l with
  | nil => simp at h
  | cons a tl ih =>
    by_cases ha : a = x
    · simp [removeFirst, ha]
    · have : x ∈ tl := by
        rcases List.mem_cons.mp h with h' | h'
        · exact absurd h'.symm ha
        · exact h'
      simp [removeFirst, ha, ih this]

theorem not_mem_removeFirst_of_nodup {β : Type} [DecidableEq β]
    (l : List β) (x : β) (hnd : l.Nodup) : x ∉ removeFirst l x := by
  induction l with
  | nil => simp [removeFirst]
  | cons a tl ih =>
    obtain ⟨hna, hnd'⟩ := List.nodup_cons.mp hnd
    by_cases h : a = x
    · subst h
      simpa [removeFirst] using hna
    · simp [removeFirst, h, Ne.symm h]
      exact ih hnd'

theorem eraseA_map_fst {κ β : Type} [DecidableEq κ]
    (l : List (κ × β)) (k : κ) :
    (eraseA l k).map Prod.fst = removeFirst (l.map Prod.fst) k := by
  induction l with
  | nil => rfl
  | cons hd tl ih =>
    obtain ⟨k', v⟩ := hd
    by_cases h : k' = k
    · simp [eraseA, removeFirst, h]
    · simp [eraseA, removeFirst, h, ih]

theorem eraseA_sublist {κ β : Type} [DecidableEq κ]
    (l : List (κ × β)) (k : κ) : (eraseA l k).Sublist l := by
  induction l with
  | nil => simp [eraseA]
  | cons hd tl ih =>
    obtain ⟨k', v⟩ := hd
    by_cases h : k' = k
    · simp [eraseA, h]
    · simp [eraseA, h]
      exact ih

theorem findA_eraseA_self {κ β : Type} [DecidableEq κ]
    (l : List (κ × β)) (k : κ) (hnd : (l.map Prod.fst).Nodup) :
    findA (eraseA l k) k = none := by
  rw [findA_eq_none_iff, eraseA_map_fst]
  exact not_mem_removeFirst_of_nodup _ k hnd

theorem intermediatesOk_nil : ∀ parts : List String, intermediatesOk [] parts = true
  | [] => rfl
  | [_] => rfl
  | _ :: _ :: _ => by simp [intermediatesOk, findA]

theorem pathParts_ne_nil (path : String) : pathParts path ≠ [] := by
  unfold pathParts List.splitOn
  intro h
  exact List.splitOnP_ne_nil _ path.data (by simpa using h)

/-- Round-trip at the level of split path parts. -/
theorem setPropParts_getPropParts (parts : List String) :
    ∀ (fs : Fields) (v : JSVal), parts ≠ [] →
      intermediatesOk fs parts = true →
      ∃ fs', setPropParts (JSVal.vobj fs) parts v = some (JSVal.vobj fs') ∧
        getPropParts (some (JSVal.vobj fs')) parts = some v := by
  induction parts with
  | nil => intro fs v h; exact absurd rfl h
  | cons p rest ih =>
    intro fs v _ hok
    cases rest with
    | nil =>
      refine ⟨setA fs p v, by simp [setPropParts], ?_⟩
      simp [getPropParts, findA_setA_self]
    | cons q rest' =>
      have hchild : ∃ cf : Fields, childOf fs p = JSVal.vobj cf ∧
          intermediatesOk cf (q :: rest') = true := by
        cases hf : findA fs p with
        | none => exact ⟨[], by simp [childOf, hf], intermediatesOk_nil _⟩
        | some c =>
          cases c with
          | vobj cf =>
            refine ⟨cf, by simp [childOf, hf], ?_⟩
            simpa [intermediatesOk, hf] using hok
          | vundef => simp [intermediatesOk, hf] at hok
          | vnull => simp [intermediatesOk, hf] at hok
          | vnum n => simp [intermediatesOk, hf] at hok
          | vstr s => simp [intermediatesOk, hf] at hok
          | varr xs => simp [intermediatesOk, hf] at hok
      obtain ⟨cf, hcf, hcok⟩ := hchild
      obtain ⟨cf', hset, hget⟩ := ih cf v (by simp) hcok
      rw [← hcf] at hset
      refine ⟨setA fs p (JSVal.vobj cf'), ?_, ?_⟩
      · simp [setPropParts, hset]
      · simpa [getPropParts, findA_setA_self] using hget

/-- C10: for every object, every non-empty dot-separated path whose
already-present intermediate segments are all objects, and every value,
`setProperty` followed by `getProperty` on the same path returns
exactly the written value (absent intermediate segments are created as
empty objects along the way). -/
theorem setProperty_getProperty_roundtrip (fs : Fields) (path : String) (v : JSVal)
    (hpath : path ≠ "")
    (hok : intermediatesOk fs (pathParts path) = true) :
    ∃ out, setProperty (JSVal.vobj fs) path v = some out ∧
      getProperty out path = some v := by
  obtain ⟨fs', hset, hget⟩ :=
    setPropParts_getPropParts (pathParts path) fs v (pathParts_ne_nil path) hok
  exact ⟨JSVal.vobj fs',
    by simp [setProperty, hpath, hset],
    by simp [getProperty, hpath, hget]⟩

/-- Witness for C10 at a concrete input: object `{a: 1}`, path
`"b.c"`, value `5` — the intermediate segment `b` is absent and gets
created. -/
theorem setProperty_getProperty_roundtrip_witness :
    ∃ out, setProperty (JSVal.vobj [("a", JSVal.vnum 1)]) "b.c" (JSVal.vnum 5) = some out ∧
      getProperty out "b.c" = some (JSVal.vnum 5) :=
  setProperty_getProperty_roundtrip [("a", JSVal.vnum 1)] "b.c" (JSVal.vnum 5)
    (by decide) (by rfl)

/-- C5: per-packet worker adapter frame property.  On a success result
the forwarded packet is the original with only `payload` replaced by
the result (every other field unchanged); on an error the forwarded
packet is the original with an `error` field set and no other change —
in particular, when no `error` field was present, it is the original
packet with `error` appended. -/
theorem worker_frame_preservation (h : Handler) (p : Fields) :
    (∀ r, h (submittedData p) = Except.ok r →
      findA (workerProcess h p) "payload" = some r ∧
      ∀ k, k ≠ "payload" → findA (workerProcess h p) k = findA p k) ∧
    (∀ e, h (submittedData p) = Except.error e →
      findA (workerProcess h p) "error" = some (JSVal.vstr e) ∧
      (∀ k, k ≠ "error" → findA (workerProcess h p) k = findA p k) ∧
      (findA p "error" = none →
        workerProcess h p = p ++ [("error", JSVal.vstr e)])) := by
  constructor
  · intro r hr
    refine ⟨?_, ?_⟩
    · simp [workerProcess, hr, workerOnResult, findA_setA_self]
    · intro k hk
      simp only [workerProcess, hr, workerOnResult]
      exact findA_setA_ne p "payload" k r hk
  · intro e he
    refine ⟨?_, ?_, ?_⟩
    · simp [workerProcess, he, workerOnError, findA_setA_self]
    · intro k hk
      simp only [workerProcess, he, workerOnError]
      exact findA_setA_ne p "error" k _ hk
    · intro habs
      simp only [workerProcess, he, workerOnError]
      exact setA_append_of_absent p "error" _ habs

/-- Witness for C5 at the spec's concrete example: packet
`{payload: 100, requestId: "r1"}` with handler `n ↦ n*n` yields
payload `10000` with `requestId` still bound to `"r1"`. -/
theorem worker_frame_preservation_witness :
    findA (workerProcess squareHandler
      [("payload", JSVal.vnum 100), ("requestId", JSVal.vstr "r1")]) "payload"
        = some (JSVal.vnum 10000) ∧
    findA (workerProcess squareHandler
      [("payload", JSVal.vnum 100), ("requestId", JSVal.vstr "r1")]) "requestId"
        = findA [("payload", JSVal.vnum 100), ("requestId", JSVal.vstr "r1")] "requestId" :=
  ⟨((worker_frame_preservation squareHandler
      [("payload", JSVal.vnum 100), ("requestId", JSVal.vstr "r1")]).1
      (JSVal.vnum 10000) rfl).1,
   ((worker_frame_preservation squareHandler
      [("payload", JSVal.vnum 100), ("requestId", JSVal.vstr "r1")]).1
      (JSVal.vnum 10000) rfl).2 "requestId" (by decide)⟩

theorem findA_map_fn {β : Type} (val : Nat → β) :
    ∀ (l : List Nat) (k : Nat),
      findA (l.map (fun id => (id, val id))) k =
        if k ∈ l then some (val k) else none := by
  intro l
  induction l with
  | nil => intro k; simp [findA]
  | cons a l ih =>
    intro k
    by_cases h : a = k
    · subst h
      simp [findA]
    · simp [findA, h, ih, Ne.symm h]

theorem range_map_get? {α β : Type} (d : α) (f : α → β) :
    ∀ items : List α,
      (List.range items.length).map (fun i => f ((items.get? i).getD d)) =
        items.map f := by
  intro items
  induction items with
  | nil => simp
  | cons a l ih =>
    rw [List.length_cons, List.range_succ_eq_map, List.map_cons, List.map_map]
    refine congrArg₂ _ rfl ?_
    have hcomp : ((fun i => f (((a :: l).get? i).getD d)) ∘ Nat.succ) =
        (fun i => f ((l.get? i).getD d)) := by
      funext i
      rfl
    rw [hcomp]
    exact ih

/-- Closed form of a `handleResult` fold: processing a run of distinct,
previously unseen ids extends the table in arrival order, and the one
send fires exactly when the last of the `N` expected results lands. -/
theorem pmapFold_spec (N : Nat) (pkt : Fields) (val : Nat → JSVal) :
    ∀ (pre done : List Nat) (S : List Fields),
      pre.Nodup →
      (∀ i ∈ pre, i ∉ done) →
      done.length + pre.length ≤ N →
      pre.foldl (fun st id => handleResult N pkt st (id, val id))
        ⟨done.map (fun id => (id, val id)), S⟩ =
      ⟨(done ++ pre).map (fun id => (id, val id)),
        S ++ (if done.length + pre.length = N ∧ pre ≠ []
          then [setA pkt "payload" (JSVal.varr (orderedResults N
            ((done ++ pre).map (fun id => (id, val id)))))]
          else [])⟩ := by
  intro pre
  induction pre with
  | nil =>
    intro done S _ _ _
    simp
  | cons a rest ih =>
    intro done S hnd hdisj hle
    have hafresh : a ∉ done := hdisj a (by simp)
    have htbl : setA (done.map (fun id => (id, val id))) a (val a) =
        (done ++ [a]).map (fun id => (id, val id)) := by
      rw [setA_append_of_absent _ _ _ (by simp [findA_map_fn, hafresh])]
      simp
    have hlen : ((done ++ [a]).map (fun id => (id, val id))).length =
        done.length + 1 := by simp
    rw [List.foldl_cons]
    cases rest with
    | nil =>
      by_cases hfin : done.length + 1 = N
      · have hstep : handleResult N pkt
            ⟨List.map (fun id => (id, val id)) done, S⟩ (a, val a) =
            ⟨List.map (fun id => (id, val id)) (done ++ [a]),
              S ++ [setA pkt "payload" (JSVal.varr (orderedResults N
                (List.map (fun id => (id, val id)) (done ++ [a]))))]⟩ := by
          simp only [handleResult, htbl, hlen]
          rw [if_pos hfin]
        rw [hstep, List.foldl_nil,
          if_pos (⟨by simpa using hfin, by simp⟩ :
            done.length + ([a] : List Nat).length = N ∧ ([a] : List Nat) ≠ [])]
      · have hstep : handleResult N pkt
            ⟨List.map (fun id => (id, val id)) done, S⟩ (a, val a) =
            ⟨List.map (fun id => (id, val id)) (done ++ [a]), S⟩ := by
          simp only [handleResult, htbl, hlen]
          rw [if_neg hfin]
        rw [hstep, List.foldl_nil,
          if_neg (fun hc => hfin (by simpa using hc.1))]
        simp
    | cons b rest' =>
      have hnofire : ¬(done.length + 1 = N) := by
        simp at hle
        omega
      have hstep : handleResult N pkt
          ⟨List.map (fun id => (id, val id)) done, S⟩ (a, val a) =
          ⟨List.map (fun id => (id, val id)) (done ++ [a]), S⟩ := by
        simp only [handleResult, htbl, hlen]
        rw [if_neg hnofire]
      have ihres := ih (done ++ [a]) S
        (List.Nodup.of_cons hnd)
        (by
          intro i hi
          simp only [List.mem_append, List.mem_singleton]
          rintro (hin | rfl)
          · exact hdisj i (by simp [hi]) hin
          · exact (List.nodup_cons.mp hnd).1 hi)
        (by simp at hle ⊢; omega)
      rw [hstep, ihres]
      have harr : (done ++ [a]) ++ b :: rest' = done ++ a :: b :: rest' := by simp
      rw [harr]
      have hcond : ((done ++ [a]).length + (b :: rest').length = N ∧
          (b :: rest') ≠ ([] : List Nat)) ↔
          (done.length + (a :: b :: rest').length = N ∧
            (a :: b :: rest') ≠ ([] : List Nat)) := by
        have h1 : (done ++ [a]).length = done.length + 1 := by simp
        simp only [h1, List.length_cons, ne_eq, List.cons_ne_nil, not_false_iff,
          and_true]
        omega
      rw [if_congr hcond rfl rfl]

/-- C4: batch-mode adapter.  For a packet whose payload is a non-empty
sequence of N items, no output is forwarded before all N sub-results
have arrived, and the single outgoing packet carries the results in
original index order — for any completion order of the N tasks. -/
theorem parallelMap_order_preserved (f : JSVal → JSVal) (pkt : Fields)
    (order : List Nat)
    (hne : pmapItems pkt ≠ [])
    (hperm : List.Perm order (List.range' 1 (pmapItems pkt).length)) :
    (∀ k, k < order.length → (pmapRun f pkt (order.take k)).sent = []) ∧
    (pmapRun f pkt order).sent =
      [setA pkt "payload" (JSVal.varr ((pmapItems pkt).map f))] := by
  have hlenord : order.length = (pmapItems pkt).length := by
    simpa using hperm.length_eq
  have hnodup : order.Nodup :=
    hperm.nodup_iff.mpr (List.nodup_range' _ _)
  constructor
  · intro k hk
    have hfold := pmapFold_spec (pmapItems pkt).length pkt
      (fun id => f (((pmapItems pkt).get? (id - 1)).getD JSVal.vundef))
      (order.take k) [] []
      (hnodup.sublist (List.take_sublist k order))
      (by simp)
      (by
        simp only [List.length_nil, List.length_take, Nat.zero_add]
        omega)
    -- `pmapRun` unfolds (up to beta) to the fold characterised above
    have hrun : pmapRun f pkt (order.take k) =
        ⟨((([] : List Nat) ++ order.take k).map
            (fun id => (id, f (((pmapItems pkt).get? (id - 1)).getD JSVal.vundef)))),
          ([] : List Fields) ++
            (if ([] : List Nat).length + (order.take k).length = (pmapItems pkt).length ∧
                order.take k ≠ []
              then [setA pkt "payload" (JSVal.varr (orderedResults (pmapItems pkt).length
                ((([] : List Nat) ++ order.take k).map
                  (fun id => (id, f (((pmapItems pkt).get? (id - 1)).getD JSVal.vundef))))))]
              else [])⟩ := hfold
    rw [hrun]
    have hnc : ¬(([] : List Nat).length + (order.take k).length = (pmapItems pkt).length ∧
        order.take k ≠ []) := by
      rintro ⟨h1, _⟩
      rw [List.length_nil, List.length_take] at h1
      omega
    rw [if_neg hnc]
    rfl
  · have hfold := pmapFold_spec (pmapItems pkt).length pkt
      (fun id => f (((pmapItems pkt).get? (id - 1)).getD JSVal.vundef))
      order [] []
      hnodup (by simp) (by simp [hlenord])
    have hrun : pmapRun f pkt order =
        ⟨((([] : List Nat) ++ order).map
            (fun id => (id, f (((pmapItems pkt).get? (id - 1)).getD JSVal.vundef)))),
          ([] : List Fields) ++
            (if ([] : List Nat).length + order.length = (pmapItems pkt).length ∧
                order ≠ []
              then [setA pkt "payload" (JSVal.varr (orderedResults (pmapItems pkt).length
                ((([] : List Nat) ++ order).map
                  (fun id => (id, f (((pmapItems pkt).get? (id - 1)).getD JSVal.vundef))))))]
              else [])⟩ := hfold
    rw [hrun]
    have hordne : order ≠ [] := by
      intro h
      rw [h] at hlenord
      have : 0 < (pmapItems pkt).length := List.length_pos.mpr hne
      simp at hlenord
      omega
    rw [if_pos ⟨by simpa using hlenord, hordne⟩]
    -- the completed table rebuilds the sequence in index order
    have hord : orderedResults (pmapItems pkt).length
        ((([] : List Nat) ++ order).map
          (fun id => (id, f (((pmapItems pkt).get? (id - 1)).getD JSVal.vundef)))) =
        (pmapItems pkt).map f := by
      rw [List.nil_append, orderedResults]
      have hstep : ∀ i ∈ List.range (pmapItems pkt).length,
          ((findA (order.map
              (fun id => (id, f (((pmapItems pkt).get? (id - 1)).getD JSVal.vundef))))
            (i + 1)).getD JSVal.vundef) =
            f (((pmapItems pkt).get? i).getD JSVal.vundef) := by
        intro i hi
        have hiN : i < (pmapItems pkt).length := List.mem_range.mp hi
        have hmem : (i + 1) ∈ order := by
          rw [hperm.mem_iff, List.mem_range'_1]
          omega
        rw [findA_map_fn, if_pos hmem]
        simp
      rw [List.map_congr_left hstep]
      exact range_map_get? JSVal.vundef f (pmapItems pkt)
    simp only [List.nil_append] at hord
    simp only [List.nil_append]
    rw [hord]

/-- Witness for C4 at the spec's concrete example: payload
`[5, 10, 15, 20, 25]`, handler `x ↦ x²`, and the scrambled completion
order `3, 1, 5, 2, 4` still yield the single output payload
`[25, 100, 225, 400, 625]`. -/
theorem parallelMap_order_preserved_witness :
    (pmapRun squareFn
      [("payload", JSVal.varr [JSVal.vnum 5, JSVal.vnum 10, JSVal.vnum 15,
        JSVal.vnum 20, JSVal.vnum 25])]
      [3, 1, 5, 2, 4]).sent =
      [[("payload", JSVal.varr [JSVal.vnum 25, JSVal.vnum 100, JSVal.vnum 225,
        JSVal.vnum 400, JSVal.vnum 625])]] :=
  ((parallelMap_order_preserved squareFn
      [("payload", JSVal.varr [JSVal.vnum 5, JSVal.vnum 10, JSVal.vnum 15,
        JSVal.vnum 20, JSVal.vnum 25])]
      [3, 1, 5, 2, 4]
      (by
        rw [show pmapItems [("payload", JSVal.varr [JSVal.vnum 5, JSVal.vnum 10,
          JSVal.vnum 15, JSVal.vnum 20, JSVal.vnum 25])] =
            [JSVal.vnum 5, JSVal.vnum 10, JSVal.vnum 15, JSVal.vnum 20,
              JSVal.vnum 25] from rfl]
        exact List.cons_ne_nil _ _)
      (by decide)).2).trans (by rfl)


theorem tryProcess_const (s : QState) :
    (tryProcess s).totalSubmitted = s.totalSubmitted ∧
    (tryProcess s).totalCompleted = s.totalCompleted ∧
    (tryProcess s).taskIdCounter = s.taskIdCounter ∧
    (tryProcess s).wcount = s.wcount ∧
    (tryProcess s).nextWorker = s.nextWorker ∧
    (tryProcess s).autoIds = s.autoIds := by
  induction s using tryProcess.induct with
  | case1 s h w t ih =>
    rw [tryProcess, dif_pos h]
    exact ih
  | case2 s h =>
    rw [tryProcess, dif_neg h]
    exact ⟨rfl, rfl, rfl, rfl, rfl, rfl⟩

theorem tryProcess_post (s : QState) :
    (tryProcess s).pending = [] ∨ (tryProcess s).pool = [] := by
  induction s using tryProcess.induct with
  | case1 s h w t ih =>
    rw [tryProcess, dif_pos h]
    exact ih
  | case2 s h =>
    rw [tryProcess, dif_neg h]
    by_cases hp : s.pending = []
    · exact Or.inl hp
    · refine Or.inr (List.length_eq_zero.mp ?_)
      have h1 : 0 < s.pending.length := List.length_pos.mpr hp
      omega

theorem tryProcess_fifo (s : QState) :
    (tryProcess s).busyW.map Prod.snd =
      s.busyW.map Prod.snd ++
        s.pending.take (min s.pending.length s.pool.length) ∧
    (tryProcess s).pending =
      s.pending.drop (min s.pending.length s.pool.length) := by
  induction s using tryProcess.induct with
  | case1 s h w t ih =>
    rw [tryProcess, dif_pos h]
    obtain ⟨ih1, ih2⟩ := ih
    have hpne : s.pending ≠ [] := List.length_pos.mp h.1
    have hlp : s.pending.length = s.pending.tail.length + 1 := by
      rw [List.length_tail]
      have := List.length_pos.mpr hpne
      omega
    have hlq : s.pool.length = s.pool.dropLast.length + 1 := by
      rw [List.length_dropLast]
      have := h.2
      omega
    have hmin : min s.pending.length s.pool.length =
        min s.pending.tail.length s.pool.dropLast.length + 1 := by
      rw [hlp, hlq]
      omega
    have htake : ∀ m, s.pending.take (m + 1) =
        s.pending.head hpne :: s.pending.tail.take m := by
      intro m
      conv_lhs => rw [← List.head_cons_tail s.pending hpne]
      rw [List.take_succ_cons]
    have hdrop : ∀ m, s.pending.drop (m + 1) = s.pending.tail.drop m := by
      intro m
      conv_lhs => rw [← List.head_cons_tail s.pending hpne]
      rw [List.drop_succ_cons]
    refine ⟨?_, ?_⟩
    · rw [ih1, hmin, htake]
      simp
    · rw [ih2, hmin, hdrop]
  | case2 s h =>
    rw [tryProcess, dif_neg h]
    have : min s.pending.length s.pool.length = 0 := by
      rcases Nat.eq_zero_or_pos s.pending.length with h1 | h1
      · omega
      · rcases Nat.eq_zero_or_pos s.pool.length with h2 | h2
        · omega
        · exact absurd ⟨h1, h2⟩ h
    rw [this]
    simp

theorem tryProcess_wf (n : Nat) (s : QState) (hwf : QWF n s) :
    QWF n (tryProcess s) := by
  induction s using tryProcess.induct with
  | case2 s h =>
    rw [tryProcess, dif_neg h]
    exact hwf
  | case1 s h w t ih =>
    rw [tryProcess, dif_pos h]
    refine ih ?_
    obtain ⟨h1, h2, h3, h4, h5, h6, h7, h8, h9⟩ := hwf
    have hqne : s.pool ≠ [] := List.length_pos.mp h.2
    have hwmem : w ∈ s.pool := List.getLast_mem _
    have hpoolsplit : s.pool.dropLast ++ [w] = s.pool :=
      List.dropLast_append_getLast _
    have hdlsub : ∀ u ∈ s.pool.dropLast, u ∈ s.pool := fun u hu =>
      (List.dropLast_sublist s.pool).mem hu
    have hwnotdl : w ∉ s.pool.dropLast := by
      have hnd := h2
      rw [← hpoolsplit] at hnd
      rcases List.nodup_append.mp hnd with ⟨_, _, hdisj⟩
      intro hmem
      exact hdisj hmem (by simp)
    refine ⟨?_, ?_, ?_, ?_, ?_, ?_, ?_, ?_, ?_⟩
    · simp only [List.map_append, List.map_cons, List.map_nil]
      rw [List.nodup_append]
      exact ⟨h1, List.nodup_singleton _,
        by
          intro u hu hv
          simp at hv
          subst hv
          exact h3 _ hwmem hu⟩
    · exact (List.dropLast_sublist s.pool).nodup h2
    · intro u hu
      simp only [List.map_append, List.map_cons, List.map_nil, List.mem_append,
        List.mem_singleton, not_or]
      exact ⟨h3 u (hdlsub u hu), fun huw => hwnotdl (huw ▸ hu)⟩
    · intro u hu
      exact h4 u (hdlsub u hu)
    · intro u hu
      simp only [List.map_append, List.map_cons, List.map_nil, List.mem_append,
        List.mem_singleton] at hu
      rcases hu with hu | rfl
      · exact h5 u hu
      · exact h4 _ hwmem
    · simp only [List.length_dropLast, List.length_append, List.length_cons,
        List.length_nil]
      have := h.2
      omega
    · exact h7
    · simp only [List.length_tail, List.length_append, List.length_cons,
        List.length_nil]
      have := h.1
      omega
    · exact h9


theorem submitCore_wf (n : Nat) (s : QState) (hwf : QWF n s)
    (tid : Option Nat) (d : JSVal) : QWF n (submitCore s tid d).1 := by
  obtain ⟨h1, h2, h3, h4, h5, h6, h7, h8, h9⟩ := hwf
  cases tid with
  | some i =>
    refine ⟨h1, h2, h3, h4, h5, h6, h7, ?_, h9⟩
    simp only [submitCore, List.length_append, List.length_cons, List.length_nil]
    omega
  | none =>
    refine ⟨h1, h2, h3, h4, h5, h6, h7, ?_, ?_⟩
    · simp only [submitCore, List.length_append, List.length_cons, List.length_nil]
      omega
    · simp only [submitCore]
      intro j hj
      rcases List.mem_append.mp hj with hj | hj
      · exact Nat.le_trans (h9 j hj) (Nat.le_succ _)
      · simp at hj
        omega

theorem submitQ_wf (n : Nat) (s : QState) (hwf : QWF n s)
    (tid : Option Nat) (d : JSVal) : QWF n (submitQ s tid d).1 :=
  tryProcess_wf n _ (submitCore_wf n s hwf tid d)

theorem onMessage_wf (n : Nat) (s : QState) (w : Nat) (isErr : Bool)
    (hwf : QWF n s) : QWF n (onMessage s w isErr).1 := by
  obtain ⟨h1, h2, h3, h4, h5, h6, h7, h8, h9⟩ := hwf
  rcases hfind : findA s.busyW w with _ | t
  · simpa only [onMessage, hfind] using ⟨h1, h2, h3, h4, h5, h6, h7, h8, h9⟩
  · have hwkey : w ∈ s.busyW.map Prod.fst :=
      List.mem_map.mpr ⟨(w, t), findA_mem _ _ _ hfind, rfl⟩
    have hwnp : w ∉ s.pool := fun hc => h3 w hc hwkey
    have herasekeys : (eraseA s.busyW w).map Prod.fst =
        removeFirst (s.busyW.map Prod.fst) w := eraseA_map_fst _ _
    have hnd' : ((eraseA s.busyW w).map Prod.fst).Nodup := by
      rw [herasekeys]
      exact (removeFirst_sublist _ _).nodup h1
    have hsubkeys : ∀ u ∈ (eraseA s.busyW w).map Prod.fst,
        u ∈ s.busyW.map Prod.fst := by
      rw [herasekeys]
      exact fun u hu => (removeFirst_sublist _ _).mem hu
    have hwgone : w ∉ (eraseA s.busyW w).map Prod.fst := by
      rw [herasekeys]
      exact not_mem_removeFirst_of_nodup _ _ h1
    have herlen : (eraseA s.busyW w).length + 1 = s.busyW.length :=
      eraseA_length_of_found _ _ _ hfind
    rcases hpend : s.pending with _ | ⟨t', rest⟩
    · -- no pending task: the worker returns to the pool
      simp only [onMessage, hfind, hpend]
      refine ⟨hnd', ?_, ?_, ?_, ?_, ?_, h7, ?_, h9⟩
      · rw [List.nodup_append]
        refine ⟨h2, List.nodup_singleton _, ?_⟩
        intro u hu hv
        simp only [List.mem_singleton] at hv
        subst hv
        exact hwnp hu
      · intro u hu
        rcases List.mem_append.mp hu with hu | hu
        · exact fun hc => h3 u hu (hsubkeys u hc)
        · simp only [List.mem_singleton] at hu
          subst hu
          exact hwgone
      · intro u hu
        rcases List.mem_append.mp hu with hu | hu
        · exact h4 u hu
        · simp only [List.mem_singleton] at hu
          subst hu
          exact h5 _ hwkey
      · exact fun u hu => h5 u (hsubkeys u hu)
      · simp only [List.length_append, List.length_cons, List.length_nil]
        omega
      · rw [hpend] at h8
        simp only [List.length_nil] at h8 ⊢
        omega
    · -- a pending task: `processNext` hands it to this worker
      simp only [onMessage, hfind, hpend, processNext]
      refine ⟨?_, h2, ?_, h4, ?_, ?_, h7, ?_, h9⟩
      · simp only [List.map_append, List.map_cons, List.map_nil]
        rw [List.nodup_append]
        refine ⟨hnd', List.nodup_singleton _, ?_⟩
        intro u hu hv
        simp only [List.mem_singleton] at hv
        subst hv
        exact hwgone hu
      · intro u hu
        simp only [List.map_append, List.map_cons, List.map_nil,
          List.mem_append, List.mem_singleton, not_or]
        refine ⟨fun hc => h3 u hu (hsubkeys u hc), ?_⟩
        intro hc
        subst hc
        exact hwnp hu
      · intro u hu
        simp only [List.map_append, List.map_cons, List.map_nil,
          List.mem_append, List.mem_singleton] at hu
        rcases hu with hu | hu
        · exact h5 u (hsubkeys u hu)
        · subst hu
          exact h5 _ hwkey
      · simp only [List.length_append, List.length_cons, List.length_nil]
        omega
      · rw [hpend] at h8
        simp only [List.length_append, List.length_cons, List.length_nil] at h8 ⊢
        omega

theorem onFault_wf (n : Nat) (s : QState) (w : Nat)
    (halive : w ∈ s.pool ∨ (findA s.busyW w).isSome)
    (hwf : QWF n s) : QWF n (onFault s w) := by
  obtain ⟨h1, h2, h3, h4, h5, h6, h7, h8, h9⟩ := hwf
  have herasekeys : (eraseA s.busyW w).map Prod.fst =
      removeFirst (s.busyW.map Prod.fst) w := eraseA_map_fst _ _
  have hnd' : ((eraseA s.busyW w).map Prod.fst).Nodup := by
    rw [herasekeys]
    exact (removeFirst_sublist _ _).nodup h1
  have hsubkeys : ∀ u ∈ (eraseA s.busyW w).map Prod.fst,
      u ∈ s.busyW.map Prod.fst := by
    rw [herasekeys]
    exact fun u hu => (removeFirst_sublist _ _).mem hu
  have hsubpool : ∀ u ∈ removeFirst s.pool w, u ∈ s.pool :=
    fun u hu => (removeFirst_sublist _ _).mem hu
  have hnextpool : s.nextWorker ∉ removeFirst s.pool w :=
    fun hc => absurd (h4 _ (hsubpool _ hc)) (by omega)
  simp only [onFault]
  refine ⟨hnd', ?_, ?_, ?_, ?_, ?_, h7, ?_, h9⟩
  · rw [List.nodup_append]
    refine ⟨(removeFirst_sublist _ _).nodup h2, List.nodup_singleton _, ?_⟩
    intro u hu hv
    simp only [List.mem_singleton] at hv
    subst hv
    exact hnextpool hu
  · intro u hu
    rcases List.mem_append.mp hu with hu | hu
    · exact fun hc => h3 u (hsubpool u hu) (hsubkeys u hc)
    · simp only [List.mem_singleton] at hu
      subst hu
      exact fun hc => absurd (h5 _ (hsubkeys _ hc)) (by omega)
  · intro u hu
    rcases List.mem_append.mp hu with hu | hu
    · exact Nat.lt_trans (h4 u (hsubpool u hu)) (Nat.lt_succ_self _)
    · simp only [List.mem_singleton] at hu
      subst hu
      exact Nat.lt_succ_self _
  · exact fun u hu => Nat.lt_trans (h5 u (hsubkeys u hu)) (Nat.lt_succ_self _)
  · -- live count restored whichever side the faulted worker was on
    rcases halive with hp | hb
    · have hwnb : w ∉ s.busyW.map Prod.fst := fun hc => h3 w hp hc
      have he : eraseA s.busyW w = s.busyW :=
        eraseA_of_absent _ _ ((findA_eq_none_iff _ _).mpr hwnb)
      rw [he]
      simp only [List.length_append, List.length_cons, List.length_nil]
      have := length_removeFirst_of_mem s.pool w hp
      omega
    · obtain ⟨t, hfind⟩ := Option.isSome_iff_exists.mp hb
      have hwkey : w ∈ s.busyW.map Prod.fst :=
        List.mem_map.mpr ⟨(w, t), findA_mem _ _ _ hfind, rfl⟩
      have hwnp : w ∉ s.pool := fun hc => h3 w hc hwkey
      have hrf : removeFirst s.pool w = s.pool := removeFirst_of_not_mem _ _ hwnp
      have herlen : (eraseA s.busyW w).length + 1 = s.busyW.length :=
        eraseA_length_of_found _ _ _ hfind
      rw [hrf]
      simp only [List.length_append, List.length_cons, List.length_nil]
      omega
  · dsimp only
    have : (eraseA s.busyW w).length ≤ s.busyW.length :=
      (eraseA_sublist _ _).length_le
    omega

theorem initQ_wf (n : Nat) : QWF n (initQ n) := by
  refine ⟨by simp [initQ], ?_, by simp [initQ], ?_, by simp [initQ], ?_, rfl,
    by simp [initQ], by simp [initQ]⟩
  · simpa [initQ] using List.nodup_range n
  · intro w hw
    simpa [initQ] using List.mem_range.mp (by simpa [initQ] using hw)
  · simp [initQ]

theorem qstep_wf (n : Nat) {s : QState} {evs : List QEvent} {s' : QState}
    (hwf : QWF n s) (hstep : QStep s evs s') : QWF n s' := by
  cases hstep with
  | submit tid d => exact submitQ_wf n s hwf tid d
  | message w isErr h => exact onMessage_wf n s w isErr hwf
  | fault w h => exact onFault_wf n s w h hwf

theorem qreach_wf (n : Nat) {s : QState} (h : QReach n s) : QWF n s := by
  induction h with
  | init => exact initQ_wf n
  | step hr hstep ih => exact qstep_wf n ih hstep


/-- C3: at every reachable queue state the submitted count dominates
the completed count; `drain()` resolves immediately exactly when
submitted equals completed with an empty pending list; and the `drain`
event — the only other way `drain()` resolves — fires only into states
satisfying that same condition, whether completions were results or
errors. -/
theorem queue_drain_invariant (n : Nat) (s : QState) (h : QReach n s) :
    s.totalCompleted ≤ s.totalSubmitted ∧
    (drainResolvesNow s = true ↔
      (s.totalSubmitted = s.totalCompleted ∧ s.pending = [])) ∧
    (∀ evs s', QStep s evs s' → QEvent.drain ∈ evs →
      s'.totalSubmitted = s'.totalCompleted ∧ s'.pending = []) := by
  obtain ⟨_, _, _, _, _, _, _, h8, _⟩ := qreach_wf n h
  refine ⟨by omega, ?_, ?_⟩
  · rw [drainResolvesNow, Bool.and_eq_true, beq_iff_eq, List.isEmpty_iff]
    constructor
    · rintro ⟨a, b⟩
      exact ⟨a.symm, b⟩
    · rintro ⟨a, b⟩
      exact ⟨a.symm, b⟩
  · intro evs s' hstep hdrain
    cases hstep with
    | submit tid d => simp at hdrain
    | fault w hw => simp at hdrain
    | message w isErr hw =>
      rcases hfind : findA s.busyW w with _ | t
      · rw [hfind] at hw
        simp at hw
      · have hev : (if isErr then QEvent.errorEv t.id else QEvent.result t.id) ≠
            QEvent.drain := by
          cases isErr <;> simp
        rcases hpend : s.pending with _ | ⟨t2, rest⟩
        · simp only [onMessage, hfind, hpend] at hdrain ⊢
          dsimp only at hdrain ⊢
          by_cases hc : s.totalCompleted + 1 = s.totalSubmitted
          · exact ⟨hc.symm, trivial⟩
          · exfalso
            rw [if_neg hc] at hdrain
            rcases List.mem_append.mp hdrain with hd | hd
            · rcases List.mem_append.mp hd with hd | hd
              · simp at hd
                exact hev hd.symm
              · simp at hd
            · split at hd
              · simp at hd
              · simp at hd
        · exfalso
          simp only [onMessage, hfind, hpend] at hdrain
          simp at hdrain
          exact hev hdrain.symm

theorem submitAll_ids (s : QState) (ts : List (Option Nat × JSVal))
    (h : ∀ td ∈ ts, (td.1 : Option Nat).isSome) :
    (submitAllQ s ts).2 = ts.map (fun td => td.1.getD 0) := by
  induction ts generalizing s with
  | nil => rfl
  | cons td rest ih =>
    obtain ⟨tid, d⟩ := td
    have hts : tid.isSome := h (tid, d) (List.mem_cons_self _ _)
    obtain ⟨i, rfl⟩ := Option.isSome_iff_exists.mp hts
    simp only [submitAllQ, List.map_cons]
    rw [ih _ (fun td htd => h td (by simp [htd]))]
    simp [submitQ, submitCore]

/-- C8: `submit` keeps a caller-supplied id and otherwise assigns the
incremented counter — fresh relative to every previously auto-assigned
id; it appends the task at the end of the pending list before the
dispatch attempt and returns the id synchronously; `submitAll` returns
the ids in input order; and dispatch always pairs an idle worker with
the oldest pending task first (FIFO) for as long as both exist. -/
theorem queue_submit_fifo (n : Nat) (s : QState) (hs : QReach n s) (d : JSVal) :
    ((submitQ s none d).2 = s.taskIdCounter + 1 ∧
      (submitQ s none d).2 ∉ s.autoIds) ∧
    (∀ i, (submitQ s (some i) d).2 = i) ∧
    ((submitCore s none d).1.pending =
        s.pending ++ [⟨s.taskIdCounter + 1, d⟩] ∧
      ∀ i, (submitCore s (some i) d).1.pending = s.pending ++ [⟨i, d⟩]) ∧
    (∀ tid, (submitQ s tid d).1 = tryProcess (submitCore s tid d).1) ∧
    (∀ ts : List (Option Nat × JSVal), (∀ td ∈ ts, (td.1 : Option Nat).isSome) →
      (submitAllQ s ts).2 = ts.map (fun td => td.1.getD 0)) ∧
    ((tryProcess s).busyW.map Prod.snd =
        s.busyW.map Prod.snd ++
          s.pending.take (min s.pending.length s.pool.length) ∧
      (tryProcess s).pending =
        s.pending.drop (min s.pending.length s.pool.length)) := by
  obtain ⟨_, _, _, _, _, _, _, _, h9⟩ := qreach_wf n hs
  refine ⟨⟨rfl, ?_⟩, fun i => rfl, ⟨rfl, fun i => rfl⟩, fun tid => rfl,
    submitAll_ids s, tryProcess_fifo s⟩
  intro hmem
  exact absurd (h9 _ hmem) (by simp [submitQ, submitCore])


theorem onMessage_gs (s : QState) (w : Nat) (isErr : Bool)
    (hgs : s.pending ≠ [] → s.pool = []) :
    (onMessage s w isErr).1.pending ≠ [] → (onMessage s w isErr).1.pool = [] := by
  rcases hfind : findA s.busyW w with _ | t
  · simpa [onMessage, hfind] using hgs
  · rcases hpend : s.pending with _ | ⟨t2, rest⟩
    · simp [onMessage, hfind, hpend]
    · simp only [onMessage, hfind, hpend, processNext]
      intro _
      exact hgs (by rw [hpend]; simp)

theorem complete_busy (s : QState) (w : Nat) (t : Task)
    (hfind : findA s.busyW w = some t) :
    ∃ evs s', QSteps s evs s' ∧ QEvent.result t.id ∈ evs := by
  refine ⟨(onMessage s w false).2 ++ [], (onMessage s w false).1,
    QSteps.head (QStep.message s w false (by rw [hfind]; rfl)) (QSteps.refl _), ?_⟩
  rcases hpend : s.pending with _ | ⟨t2, rest⟩
  · simp [onMessage, hfind, hpend]
  · simp [onMessage, hfind, hpend]

theorem task_completes (n : Nat) (hn : 0 < n) :
    ∀ (k : Nat) (s : QState) (t : Task), QWF n s →
      (s.pending ≠ [] → s.pool = []) →
      s.pending.get? k = some t →
      ∃ evs s', QSteps s evs s' ∧ QEvent.result t.id ∈ evs := by
  intro k
  induction k with
  | zero =>
    intro s t hwf hgs hget
    have hpne : s.pending ≠ [] := by
      intro h
      rw [h] at hget
      simp at hget
    have hpool : s.pool = [] := hgs hpne
    obtain ⟨h1, h2, h3, h4, h5, h6, h7, h8, h9⟩ := hwf
    have hbne : s.busyW ≠ [] := by
      intro hb
      rw [hpool, hb] at h6
      simp at h6
      omega
    obtain ⟨⟨w0, t0⟩, hbw⟩ := List.exists_mem_of_ne_nil _ hbne
    have hfind0 : findA s.busyW w0 = some t0 := findA_of_mem_nodup _ _ _ h1 hbw
    rcases hpend : s.pending with _ | ⟨thead, rest⟩
    · exact absurd hpend hpne
    · have hth : thead = t := by
        rw [hpend] at hget
        simpa using hget
      subst hth
      have hstep := QStep.message s w0 false (by rw [hfind0]; rfl)
      have hbusy1 : (onMessage s w0 false).1.busyW =
          eraseA s.busyW w0 ++ [(w0, thead)] := by
        simp [onMessage, hfind0, hpend, processNext]
      have hfind1 : findA (onMessage s w0 false).1.busyW w0 = some thead := by
        rw [hbusy1, findA_append_right _ _ _ (findA_eraseA_self _ _ h1)]
        simp [findA]
      obtain ⟨evs2, s2, hsteps2, hmem2⟩ :=
        complete_busy (onMessage s w0 false).1 w0 thead hfind1
      exact ⟨_, s2, QSteps.head hstep hsteps2, List.mem_append_right _ hmem2⟩
  | succ k ih =>
    intro s t hwf hgs hget
    have hpne : s.pending ≠ [] := by
      intro h
      rw [h] at hget
      simp at hget
    have hpool : s.pool = [] := hgs hpne
    obtain ⟨h1, h2, h3, h4, h5, h6, h7, h8, h9⟩ := hwf
    have hbne : s.busyW ≠ [] := by
      intro hb
      rw [hpool, hb] at h6
      simp at h6
      omega
    obtain ⟨⟨w0, t0⟩, hbw⟩ := List.exists_mem_of_ne_nil _ hbne
    have hfind0 : findA s.busyW w0 = some t0 := findA_of_mem_nodup _ _ _ h1 hbw
    rcases hpend : s.pending with _ | ⟨thead, rest⟩
    · exact absurd hpend hpne
    · have hstep := QStep.message s w0 false (by rw [hfind0]; rfl)
      have hwf1 : QWF n (onMessage s w0 false).1 :=
        onMessage_wf n s w0 false ⟨h1, h2, h3, h4, h5, h6, h7, h8, h9⟩
      have hgs1 := onMessage_gs s w0 false hgs
      have hget1 : (onMessage s w0 false).1.pending.get? k = some t := by
        have hp1 : (onMessage s w0 false).1.pending = rest := by
          simp [onMessage, hfind0, hpend, processNext]
        rw [hp1]
        rw [hpend] at hget
        simpa using hget
      obtain ⟨evs2, s2, hsteps2, hmem2⟩ :=
        ih (onMessage s w0 false).1 t hwf1 hgs1 hget1
      exact ⟨_, s2, QSteps.head hstep hsteps2, List.mem_append_right _ hmem2⟩

/-- C9: the live worker count (idle plus busy) equals the configured
pool size at every reachable state — in particular it is restored
right after a fault replaces the dead worker; the fault neither
re-queues nor re-records the task that was in flight on the dead
worker (pending and the in-flight table are untouched, the dead
worker's slot is simply gone); and a task submitted after the fault
can still be driven to completion. -/
theorem worker_replacement (n : Nat) (hn : 0 < n) (s : QState)
    (hs : QReach n s) :
    s.pool.length + s.busyW.length = n ∧
    (∀ w t, findA s.busyW w = some t →
      (onFault s w).pool.length + (onFault s w).busyW.length = n ∧
      (onFault s w).pending = s.pending ∧
      (onFault s w).running = s.running ∧
      findA (onFault s w).busyW w = none) ∧
    (∀ w d, (w ∈ s.pool ∨ (findA s.busyW w).isSome) →
      ∃ evs s', QSteps (submitQ (onFault s w) none d).1 evs s' ∧
        QEvent.result ((submitQ (onFault s w) none d).2) ∈ evs) := by
  have hwf := qreach_wf n hs
  refine ⟨hwf.2.2.2.2.2.1, ?_, ?_⟩
  · intro w t hfind
    have hwf' := onFault_wf n s w (Or.inr (by rw [hfind]; rfl)) hwf
    refine ⟨hwf'.2.2.2.2.2.1, rfl, rfl, ?_⟩
    simp only [onFault]
    exact findA_eraseA_self _ _ hwf.1
  · intro w d halive
    have hwfF : QWF n (onFault s w) := onFault_wf n s w halive hwf
    have hwfC : QWF n (submitCore (onFault s w) none d).1 :=
      submitCore_wf n _ hwfF none d
    have hwf1 : QWF n (submitQ (onFault s w) none d).1 :=
      tryProcess_wf n _ hwfC
    have hgs1 : (submitQ (onFault s w) none d).1.pending ≠ [] →
        (submitQ (onFault s w) none d).1.pool = [] := by
      intro hne
      rcases tryProcess_post (submitCore (onFault s w) none d).1 with hc | hc
      · exact absurd hc hne
      · exact hc
    -- the freshly submitted task either got dispatched by `tryProcess`
    -- or still sits in the pending list
    have hfifo := tryProcess_fifo (submitCore (onFault s w) none d).1
    have htsk : (⟨(onFault s w).taskIdCounter + 1, d⟩ : Task) ∈
        (submitCore (onFault s w) none d).1.pending := by
      simp [submitCore]
    have hsplit : (⟨(onFault s w).taskIdCounter + 1, d⟩ : Task) ∈
        (submitQ (onFault s w) none d).1.busyW.map Prod.snd ∨
        (⟨(onFault s w).taskIdCounter + 1, d⟩ : Task) ∈
          (submitQ (onFault s w) none d).1.pending := by
      obtain ⟨hf1, hf2⟩ := hfifo
      rcases List.mem_append.mp
        ((List.take_append_drop
            (min (submitCore (onFault s w) none d).1.pending.length
              (submitCore (onFault s w) none d).1.pool.length)
            (submitCore (onFault s w) none d).1.pending) ▸ htsk) with hm | hm
      · left
        show _ ∈ ((tryProcess (submitCore (onFault s w) none d).1).busyW.map
          Prod.snd)
        rw [hf1]
        exact List.mem_append_right _ hm
      · right
        show _ ∈ (tryProcess (submitCore (onFault s w) none d).1).pending
        rw [hf2]
        exact hm
    rcases hsplit with hm | hm
    · obtain ⟨p, hp, hsnd⟩ := List.mem_map.mp hm
      obtain ⟨w1, t1⟩ := p
      simp only at hsnd
      subst hsnd
      have hfind1 : findA (submitQ (onFault s w) none d).1.busyW w1 =
          some (⟨(onFault s w).taskIdCounter + 1, d⟩ : Task) :=
        findA_of_mem_nodup _ _ _ hwf1.1 hp
      obtain ⟨evs, s2, hsteps, hmem⟩ :=
        complete_busy (submitQ (onFault s w) none d).1 w1 _ hfind1
      exact ⟨evs, s2, hsteps, hmem⟩
    · obtain ⟨k, hk⟩ := List.get?_of_mem hm
      obtain ⟨evs, s2, hsteps, hmem⟩ :=
        task_completes n hn k (submitQ (onFault s w) none d).1 _ hwf1 hgs1 hk
      exact ⟨evs, s2, hsteps, hmem⟩


/-- Witness for C3 at the initial one-worker queue: nothing submitted,
nothing completed — `drain()` resolves immediately, and the invariant
holds. -/
theorem queue_drain_invariant_witness :
    drainResolvesNow (initQ 1) = true ∧
    (initQ 1).totalCompleted ≤ (initQ 1).totalSubmitted :=
  ⟨(queue_drain_invariant 1 (initQ 1) QReach.init).2.1.mpr ⟨rfl, rfl⟩,
   (queue_drain_invariant 1 (initQ 1) QReach.init).1⟩

/-- Witness for C8: the first id-less submission on a fresh two-worker
queue returns task id 1 synchronously. -/
theorem queue_submit_fifo_witness :
    (submitQ (initQ 2) none (JSVal.vnum 7)).2 = 1 :=
  ((queue_submit_fifo 2 (initQ 2) QReach.init (JSVal.vnum 7)).1.1).trans rfl

/-- Witness for C9 on a fresh one-worker queue: the live count is the
configured size, and after faulting worker 0 a subsequently submitted
task still completes (its result event is reachable). -/
theorem worker_replacement_witness :
    (initQ 1).pool.length + (initQ 1).busyW.length = 1 ∧
    ∃ evs s', QSteps (submitQ (onFault (initQ 1) 0) none (JSVal.vnum 3)).1 evs s' ∧
      QEvent.result ((submitQ (onFault (initQ 1) 0) none (JSVal.vnum 3)).2) ∈ evs :=
  ⟨(worker_replacement 1 (by decide) (initQ 1) QReach.init).1,
   (worker_replacement 1 (by decide) (initQ 1) QReach.init).2.2 0 (JSVal.vnum 3)
     (Or.inl (by simp [initQ]))⟩


theorem modNth_length {β : Type} (l : List β) (i : Nat) (f : β → β) :
    (modNth l i f).length = l.length := by
  induction l generalizing i with
  | nil => rfl
  | cons x xs ih =>
    cases i with
    | zero => simp [modNth]
    | succ i => simp [modNth, ih]

theorem modNth_get?_self {β : Type} (l : List β) (i : Nat) (f : β → β)
    (h : i < l.length) : (modNth l i f).get? i = (l.get? i).map f := by
  induction l generalizing i with
  | nil => simp at h
  | cons x xs ih =>
    cases i with
    | zero => simp [modNth]
    | succ i =>
      simp only [modNth, List.get?_cons_succ]
      exact ih i (by simpa using h)

theorem modNth_get?_ne {β : Type} (l : List β) (i k : Nat) (f : β → β)
    (h : k ≠ i) : (modNth l i f).get? k = l.get? k := by
  induction l generalizing i k with
  | nil => rfl
  | cons x xs ih =>
    cases i with
    | zero =>
      cases k with
      | zero => exact absurd rfl h
      | succ k => simp [modNth]
    | succ i =>
      cases k with
      | zero => simp [modNth]
      | succ k =>
        simp only [modNth, List.get?_cons_succ]
        exact ih i k (fun hc => h (by omega))

theorem connect_nodes_get?_ne {α : Type} (net : FlowNet α) (i : Nat)
    (j : Option Nat) (k : Nat) (h : k ≠ i) :
    (connect net i j).nodes.get? k = net.nodes.get? k :=
  modNth_get?_ne _ _ _ _ h

theorem connect_nodes_get?_self {α : Type} (net : FlowNet α) (i : Nat)
    (j : Option Nat) (h : i < net.nodes.length) :
    (connect net i j).nodes.get? i =
      (net.nodes.get? i).map (fun nd => ⟨nd.proc, addOut nd.outs j⟩) :=
  modNth_get?_self _ _ _ h

theorem connect_pipes {α : Type} (net : FlowNet α) (i : Nat)
    (j : Option Nat) : (connect net i j).pipes = net.pipes := rfl

theorem connect_length {α : Type} (net : FlowNet α) (i : Nat)
    (j : Option Nat) : (connect net i j).nodes.length = net.nodes.length :=
  modNth_length _ _ _

theorem addSeriesNodes_spec {α : Type} (es : List (FlowElem α)) :
    ∀ net : FlowNet α,
      (addSeriesNodes net es).1 =
        { net with nodes := net.nodes ++ es.map (fun e => ⟨elemProc e, []⟩) } ∧
      (addSeriesNodes net es).2 = List.range' net.nodes.length es.length := by
  induction es with
  | nil => intro net; simp [addSeriesNodes]
  | cons e es ih =>
    intro net
    obtain ⟨ih1, ih2⟩ := ih (makeNode net (elemProc e)).1
    constructor
    · rw [addSeriesNodes, ih1]
      simp [makeNode]
    · rw [addSeriesNodes]
      simp only []
      rw [ih2]
      simp [makeNode, List.range'_succ]


theorem chainConnect_get? {α : Type} :
    ∀ (n a : Nat) (net : FlowNet α) (k : Nat),
      (chainConnect net (List.range' a n)).nodes.get? k =
        if a ≤ k ∧ k + 1 < a + n then
          (net.nodes.get? k).map (fun nd => ⟨nd.proc, addOut nd.outs (some (k + 1))⟩)
        else net.nodes.get? k := by
  intro n
  induction n with
  | zero =>
    intro a net k
    rw [if_neg (by omega)]
    rfl
  | succ n ih =>
    intro a net k
    cases n with
    | zero =>
      rw [if_neg (by omega)]
      rfl
    | succ m =>
      rw [List.range'_succ, List.range'_succ, chainConnect,
        ← List.range'_succ (a + 1) m]
      rw [ih (a + 1) (connect net a (some (a + 1))) k]
      by_cases hk : k = a
      · subst hk
        rw [if_neg (by omega), if_pos (by omega)]
        by_cases hlen : k < net.nodes.length
        · rw [connect_nodes_get?_self net k (some (k + 1)) hlen]
        · have hnone : net.nodes.get? k = none :=
            List.get?_eq_none.mpr (by omega)
          have hnone' : (connect net k (some (k + 1))).nodes.get? k = none :=
            List.get?_eq_none.mpr (by rw [connect_length]; omega)
          rw [hnone, hnone']
          rfl
      · rw [connect_nodes_get?_ne net a (some (a + 1)) k hk]
        by_cases hc : a ≤ k ∧ k + 1 < a + (m + 2)
        · rw [if_pos (by omega), if_pos hc]
        · rw [if_neg (by omega), if_neg hc]

theorem chainConnect_pipes {α : Type} :
    ∀ (idxs : List Nat) (net : FlowNet α),
      (chainConnect net idxs).pipes = net.pipes := by
  intro idxs
  induction idxs with
  | nil => intro net; rfl
  | cons i rest ih =>
    intro net
    cases rest with
    | nil => rfl
    | cons j rest' =>
      rw [chainConnect, ih]
      rfl

theorem chainConnect_length {α : Type} :
    ∀ (idxs : List Nat) (net : FlowNet α),
      (chainConnect net idxs).nodes.length = net.nodes.length := by
  intro idxs
  induction idxs with
  | nil => intro net; rfl
  | cons i rest ih =>
    intro net
    cases rest with
    | nil => rfl
    | cons j rest' =>
      rw [chainConnect, ih, connect_length]

theorem filter_map_fn {α : Type} (ts : List (α → α)) :
    (ts.map (fun f => FlowElem.fn (pureProc f))).filter
        (fun el => !(isArrElem el)) =
      ts.map (fun f => FlowElem.fn (pureProc f)) := by
  refine List.filter_eq_self.mpr ?_
  intro e he
  obtain ⟨f, _, rfl⟩ := List.mem_map.mp he
  rfl

theorem compileLine_series {α : Type} (src dst : String) (hne : src ≠ dst)
    (t0 : α → α) (ts' : List (α → α)) :
    compileLine (emptyNet (α := α)) (seriesLine src dst (t0 :: ts')) =
      some (connect
        (connect
          (chainConnect
            (⟨[⟨pipeProc, []⟩, ⟨pipeProc, []⟩] ++
                (t0 :: ts').map (fun f => ⟨pureProc f, []⟩),
              [(src, 0), (dst, 1)]⟩ : FlowNet α)
            (List.range' 2 (ts'.length + 1)))
          0 (some 2))
        (2 + ts'.length) (some 1)) := by
  rw [seriesLine, compileLine]
  rw [dif_neg (by simp)]
  dsimp only
  have hlast : (FlowElem.pipe src ::
      (List.map (fun f => FlowElem.fn (pureProc f)) (t0 :: ts') ++
        [FlowElem.pipe dst])).getLast (by simp) = FlowElem.pipe dst :=
    List.getLast_concat (FlowElem.pipe src ::
      List.map (fun f => FlowElem.fn (pureProc f)) (t0 :: ts'))
  simp only [hlast]
  have hsrc : resolveSource (emptyNet (α := α)) (FlowElem.pipe src) =
      (⟨[⟨pipeProc, []⟩], [(src, 0)]⟩, some 0) := rfl
  rw [hsrc]
  have hdst : resolveDest (⟨[⟨pipeProc, []⟩], [(src, 0)]⟩ : FlowNet α)
      (FlowElem.pipe dst) =
      (⟨[⟨pipeProc, []⟩, ⟨pipeProc, []⟩], [(src, 0), (dst, 1)]⟩, some 1) := by
    simp [resolveDest, getPipe, findA, hne, makeNode]
  rw [hdst]
  simp only [List.dropLast_concat, List.map_cons]
  have hfil := filter_map_fn (α := α) (t0 :: ts')
  simp only [List.map_cons] at hfil
  rw [hfil]
  rw [buildSeries]
  obtain ⟨ha1, ha2⟩ := addSeriesNodes_spec
    (FlowElem.fn (pureProc t0) :: List.map (fun f => FlowElem.fn (pureProc f)) ts')
    (⟨[⟨pipeProc, []⟩, ⟨pipeProc, []⟩], [(src, 0), (dst, 1)]⟩ : FlowNet α)
  rw [ha1, ha2]
  have hmap2 : (FlowElem.fn (pureProc t0) ::
      List.map (fun f => FlowElem.fn (pureProc f)) ts').map
        (fun e => (⟨elemProc e, []⟩ : FlowNode α)) =
      ⟨pureProc t0, []⟩ :: ts'.map (fun f => ⟨pureProc f, []⟩) := by
    simp only [List.map_cons, List.map_map]
    rfl
  rw [hmap2]
  norm_num
  done


theorem seriesNet_spec {α : Type} (src dst : String) (hne : src ≠ dst)
    (t0 : α → α) (ts' : List (α → α)) :
    ∃ net : FlowNet α,
      flowCompile [seriesLine src dst (t0 :: ts')] = some net ∧
      net.pipes = [(src, 0), (dst, 1)] ∧
      net.nodes.get? 0 = some ⟨pipeProc, [some 2]⟩ ∧
      net.nodes.get? 1 = some ⟨pipeProc, []⟩ ∧
      (∀ k (hk : k < ts'.length + 1),
        net.nodes.get? (k + 2) =
          some ⟨pureProc ((t0 :: ts').get ⟨k, by simpa using hk⟩),
            [some (if k + 1 = ts'.length + 1 then 1 else k + 3)]⟩) := by
  have hcl := compileLine_series src dst hne t0 ts'
  refine ⟨connect (connect (chainConnect
      (⟨[⟨pipeProc, []⟩, ⟨pipeProc, []⟩] ++
          (t0 :: ts').map (fun f => ⟨pureProc f, []⟩),
        [(src, 0), (dst, 1)]⟩ : FlowNet α)
      (List.range' 2 (ts'.length + 1))) 0 (some 2)) (2 + ts'.length) (some 1),
    ?_, ?_, ?_, ?_, ?_⟩
  · rw [flowCompile, compileGraph, hcl]
    rfl
  · rw [connect_pipes, connect_pipes, chainConnect_pipes]
  · -- node 0: the source pipe, wired to the chain input 2
    rw [connect_nodes_get?_ne _ _ _ _ (by omega),
      connect_nodes_get?_self _ _ _
        (by rw [chainConnect_length]; simp)]
    rw [chainConnect_get?]
    rw [if_neg (by omega)]
    rfl
  · -- node 1: the destination pipe, no outputs
    rw [connect_nodes_get?_ne _ _ _ _ (by omega),
      connect_nodes_get?_ne _ _ _ _ (by omega),
      chainConnect_get?, if_neg (by omega)]
    rfl
  · -- the chain nodes
    intro k hk
    have hbase : ∀ (j : Nat) (hj : j < ts'.length + 1),
        ((⟨[⟨pipeProc, []⟩, ⟨pipeProc, []⟩] ++
            (t0 :: ts').map (fun f => ⟨pureProc f, []⟩),
          [(src, 0), (dst, 1)]⟩ : FlowNet α)).nodes.get? (j + 2) =
        some ⟨pureProc ((t0 :: ts').get ⟨j, by simpa using hj⟩), []⟩ := by
      intro j hj
      show ((t0 :: ts').map
        (fun f => ({ proc := pureProc f, outs := [] } : FlowNode α))).get? j = _
      rw [List.get?_map, List.get?_eq_get (by simpa using hj)]
      rfl
    by_cases hlast : k + 1 = ts'.length + 1
    · -- the last transform connects to the destination pipe
      rw [if_pos hlast]
      have hk2 : k = ts'.length := by omega
      subst hk2
      rw [show (ts'.length + 2 : Nat) = 2 + ts'.length from by omega]
      rw [connect_nodes_get?_self _ _ _
        (by rw [connect_length, chainConnect_length]; simp; omega)]
      rw [connect_nodes_get?_ne _ _ _ _ (by omega)]
      rw [chainConnect_get?, if_neg (by omega)]
      rw [show (2 + ts'.length : Nat) = ts'.length + 2 from by omega]
      rw [hbase ts'.length (by omega)]
      rfl
    · -- an inner transform connects to its successor
      rw [if_neg hlast]
      rw [connect_nodes_get?_ne _ _ _ _ (by omega),
        connect_nodes_get?_ne _ _ _ _ (by omega)]
      rw [chainConnect_get?, if_pos (by omega)]
      rw [hbase k (by omega)]
      rfl



theorem runNode_pure_step {α : Type} (net : FlowNet α) (c c' : Nat)
    (fuel : Nat) (f : α → α) (p : α)
    (h : net.nodes.get? c = some ⟨pureProc f, [some c']⟩) :
    runNode net (fuel + 1) c p = (c, p) :: runNode net fuel c' (f p) := by
  rw [runNode, h]
  simp [pureProc]

theorem runNode_pipe_end {α : Type} (net : FlowNet α) (d fuel : Nat) (p : α)
    (h : net.nodes.get? d = some ⟨pipeProc, []⟩) :
    runNode net (fuel + 1) d p = [(d, p)] := by
  rw [runNode, h]
  simp [pipeProc]

theorem run_chain {α : Type} (net : FlowNet α) (d : Nat)
    (hd : net.nodes.get? d = some ⟨pipeProc, []⟩) :
    ∀ (us : List (α → α)) (c : Nat) (p : α) (fuel : Nat),
      us ≠ [] →
      (∀ k (hk : k < us.length), net.nodes.get? (c + k) =
        some ⟨pureProc (us.get ⟨k, hk⟩),
          [some (if k + 1 = us.length then d else c + k + 1)]⟩) →
      us.length + 2 ≤ fuel →
      runNode net fuel c p =
        chainTrace c p us ++ [(d, us.foldl (fun q f => f q) p)] := by
  intro us
  induction us with
  | nil => intro c p fuel h; exact absurd rfl h
  | cons f fs ih =>
    intro c p fuel _ hnodes hfuel
    cases fs with
    | nil =>
      have h0 := hnodes 0 (by simp)
      rw [Nat.add_zero] at h0
      simp only [List.length_singleton, List.get] at h0
      obtain ⟨fuel1, rfl⟩ : ∃ m, fuel = m + 1 :=
        ⟨fuel - 1, by omega⟩
      rw [runNode_pure_step net c d fuel1 f p (by simpa using h0)]
      obtain ⟨fuel2, rfl⟩ : ∃ m, fuel1 = m + 1 :=
        ⟨fuel1 - 1, by simp at hfuel; omega⟩
      rw [runNode_pipe_end net d fuel2 (f p) hd]
      rfl
    | cons g rest =>
      have h0 := hnodes 0 (by simp)
      rw [Nat.add_zero] at h0
      rw [if_neg (by simp)] at h0
      obtain ⟨fuel1, rfl⟩ : ∃ m, fuel = m + 1 :=
        ⟨fuel - 1, by omega⟩
      rw [runNode_pure_step net c (c + 0 + 1) fuel1 f p (by simpa using h0)]
      have hrec := ih (c + 1) (f p) fuel1 (by simp)
        (by
          intro k hk
          have hh := hnodes (k + 1) (by simpa using hk)
          rw [show c + (k + 1) = c + 1 + k from by omega] at hh
          rw [hh]
          have hcond : (k + 1 + 1 = (f :: g :: rest).length) ↔
              (k + 1 = (g :: rest).length) := by
            simp
          by_cases hc : k + 1 = (g :: rest).length
          · rw [if_pos (by simpa using hc), if_pos hc]
            rfl
          · rw [if_neg (by simpa using hc), if_neg hc]
            rfl)
        (by simp at hfuel ⊢; omega)
      rw [show c + 0 + 1 = c + 1 from by omega, hrec]
      rfl

theorem observedAt_chainTrace_out {α : Type} :
    ∀ (us : List (α → α)) (c : Nat) (p : α) (j : Nat),
      (j < c ∨ c + us.length ≤ j) →
      observedAt (chainTrace c p us) j = [] := by
  intro us
  induction us with
  | nil => intro c p j h; rfl
  | cons f fs ih =>
    intro c p j h
    have hne : (c == j) = false := by
      simp only [beq_eq_false_iff_ne, ne_eq]
      intro hc
      subst hc
      rcases h with h | h
      · omega
      · simp only [List.length_cons] at h
        omega
    simp only [chainTrace, observedAt, List.filter_cons, hne]
    refine ih (c + 1) (f p) j ?_
    rcases h with h | h
    · exact Or.inl (by omega)
    · exact Or.inr (by simp at h; omega)

theorem observedAt_chainTrace_at {α : Type} :
    ∀ (us : List (α → α)) (c : Nat) (p : α) (k : Nat), k < us.length →
      observedAt (chainTrace c p us) (c + k) =
        [(us.take k).foldl (fun q f => f q) p] := by
  intro us
  induction us with
  | nil => intro c p k h; simp at h
  | cons f fs ih =>
    intro c p k hk
    cases k with
    | zero =>
      rw [Nat.add_zero]
      have hout := observedAt_chainTrace_out fs (c + 1) (f p) c
        (Or.inl (by omega))
      simp only [observedAt] at hout
      simp only [chainTrace, observedAt, List.filter_cons]
      have hbeq : ((c, p).1 == c) = true := by simp
      rw [hbeq, if_pos rfl]
      simp only [List.map_cons, hout]
      rfl
    | succ k =>
      rw [show c + (k + 1) = c + 1 + k from by omega]
      have hrec := ih (c + 1) (f p) k (by simpa using hk)
      simp only [observedAt] at hrec
      simp only [chainTrace, observedAt, List.filter_cons]
      have hbeq : ((c, p).1 == c + 1 + k) = false := by
        simp only [beq_eq_false_iff_ne, ne_eq]
        omega
      rw [hbeq, if_neg Bool.false_ne_true, hrec]
      rfl

theorem observedAt_append {α : Type} (A B : List (Nat × α)) (j : Nat) :
    observedAt (A ++ B) j = observedAt A j ++ observedAt B j := by
  simp [observedAt]

theorem observedAt_cons_ne {α : Type} (i : Nat) (p : α) (tr : List (Nat × α))
    (j : Nat) (h : i ≠ j) :
    observedAt ((i, p) :: tr) j = observedAt tr j := by
  simp [observedAt, List.filter_cons, h]

theorem observedAt_single {α : Type} (i : Nat) (p : α) (j : Nat) :
    observedAt [(i, p)] j = if i = j then [p] else [] := by
  by_cases h : i = j <;> simp [observedAt, h]

theorem compileLine_series_nil {α : Type} (src dst : String) (hne : src ≠ dst) :
    compileLine (emptyNet (α := α)) (seriesLine src dst []) =
      some ⟨[⟨pipeProc, [some 1]⟩, ⟨pipeProc, []⟩], [(src, 0), (dst, 1)]⟩ := by
  rw [seriesLine, compileLine]
  simp only [List.map_nil, List.nil_append]
  rw [dif_neg (by simp)]
  dsimp only
  simp only [List.dropLast, List.getLast]
  have hs : resolveSource (emptyNet (α := α)) (FlowElem.pipe src) =
      (⟨[⟨pipeProc, []⟩], [(src, 0)]⟩, some 0) := rfl
  have hd : resolveDest (⟨[⟨pipeProc, []⟩], [(src, 0)]⟩ : FlowNet α)
      (FlowElem.pipe dst) =
      (⟨[⟨pipeProc, []⟩, ⟨pipeProc, []⟩], [(src, 0), (dst, 1)]⟩, some 1) := by
    rw [resolveDest]
    simp only [getPipe, findA]
    rw [if_neg hne]
    rfl
  rw [hs, hd]
  rfl

/-- C1: a flat interior of N pure transforms is wired in series — the
destination observes exactly the left-to-right composition applied to
the injected packet, and the k-th transform observes exactly the fold
of its predecessors (the accumulated output of its predecessor only). -/
theorem flow_series_composes {α : Type} (src dst : String) (hne : src ≠ dst)
    (ts : List (α → α)) (P : α) :
    ∃ net : FlowNet α,
      flowCompile [seriesLine src dst ts] = some net ∧
      findA net.pipes src = some 0 ∧
      findA net.pipes dst = some 1 ∧
      observedAt (runNode net (ts.length + 3) 0 P) 1 =
        [ts.foldl (fun q f => f q) P] ∧
      ∀ k, k < ts.length →
        observedAt (runNode net (ts.length + 3) 0 P) (k + 2) =
          [(ts.take k).foldl (fun q f => f q) P] := by
  cases ts with
  | nil =>
    refine ⟨⟨[⟨pipeProc, [some 1]⟩, ⟨pipeProc, []⟩], [(src, 0), (dst, 1)]⟩,
      ?_, ?_, ?_, ?_, ?_⟩
    · rw [flowCompile, compileGraph, compileLine_series_nil src dst hne]
      rfl
    · simp [findA]
    · simp [findA, hne]
    · rfl
    · intro k hk
      simp at hk
  | cons t0 ts' =>
    obtain ⟨net, hcomp, hpipes, h0, h1, hchain⟩ :=
      seriesNet_spec src dst hne t0 ts'
    have h0id : net.nodes.get? 0 = some ⟨pureProc (id : α → α), [some 2]⟩ := h0
    have hnodes : ∀ k (hk : k < (t0 :: ts').length),
        net.nodes.get? (2 + k) =
          some ⟨pureProc ((t0 :: ts').get ⟨k, hk⟩),
            [some (if k + 1 = (t0 :: ts').length then 1 else 2 + k + 1)]⟩ := by
      intro k hk
      have hh := hchain k (by simpa using hk)
      rw [show (2 + k : Nat) = k + 2 from by omega, hh]
      by_cases hc : k + 1 = ts'.length + 1
      · rw [if_pos hc, if_pos (by simpa using hc)]
      · rw [if_neg hc, if_neg (by simpa using hc)]
    have hrun := run_chain net 1 h1 (t0 :: ts') 2 P
      ((t0 :: ts').length + 2) (by simp) hnodes (by omega)
    have htr : runNode net ((t0 :: ts').length + 3) 0 P =
        (0, P) :: (chainTrace 2 P (t0 :: ts') ++
          [(1, (t0 :: ts').foldl (fun q f => f q) P)]) := by
      have hstep := runNode_pure_step net 0 2 ((t0 :: ts').length + 2) id P h0id
      rw [show (t0 :: ts').length + 3 = (t0 :: ts').length + 2 + 1 from rfl,
        hstep, show (id P) = P from rfl, hrun]
    refine ⟨net, hcomp, ?_, ?_, ?_, ?_⟩
    · rw [hpipes]
      simp [findA]
    · rw [hpipes]
      simp [findA, hne]
    · rw [htr, observedAt_cons_ne _ _ _ _ (by omega), observedAt_append,
        observedAt_chainTrace_out (t0 :: ts') 2 P 1 (Or.inl (by omega)),
        observedAt_single, if_pos rfl]
      rfl
    · intro k hk
      rw [htr, observedAt_cons_ne _ _ _ _ (by omega), observedAt_append,
        observedAt_single, if_neg (by omega),
        show (k + 2 : Nat) = 2 + k from by omega,
        observedAt_chainTrace_at (t0 :: ts') 2 P k (by simpa using hk)]
      rfl

theorem flow_series_composes_witness :
    ("in" : String) ≠ "out" ∧
    (∃ net : FlowNet Nat,
      flowCompile [seriesLine "in" "out"
        ([fun x => x + 1, fun x => x * 2] : List (Nat → Nat))] = some net ∧
      findA net.pipes "in" = some 0 ∧
      findA net.pipes "out" = some 1 ∧
      observedAt (runNode net (([fun x => x + 1, fun x => x * 2] :
          List (Nat → Nat)).length + 3) 0 5) 1 =
        [([fun x => x + 1, fun x => x * 2] :
          List (Nat → Nat)).foldl (fun q f => f q) 5] ∧
      ∀ k, k < ([fun x => x + 1, fun x => x * 2] : List (Nat → Nat)).length →
        observedAt (runNode net (([fun x => x + 1, fun x => x * 2] :
            List (Nat → Nat)).length + 3) 0 5) (k + 2) =
          [(([fun x => x + 1, fun x => x * 2] :
            List (Nat → Nat)).take k).foldl (fun q f => f q) 5]) :=
  ⟨by decide, flow_series_composes "in" "out" (by decide)
    ([fun x => x + 1, fun x => x * 2] : List (Nat → Nat)) 5⟩


theorem observedAt_cons_self {α : Type} (i : Nat) (p : α)
    (tr : List (Nat × α)) :
    observedAt ((i, p) :: tr) i = p :: observedAt tr i := by
  simp [observedAt]

theorem bind_cons_eq {α β : Type} (x : α) (xs : List α) (g : α → List β) :
    (x :: xs).bind g = g x ++ xs.bind g := rfl

theorem bind_nil_eq {α β : Type} (g : α → List β) :
    ([] : List α).bind g = [] := rfl

theorem parallelWire_pipes {α : Type} :
    ∀ (idxs : List Nat) (net : FlowNet α) (s : Nat) (d : Option Nat),
      (parallelWire net s d idxs).pipes = net.pipes := by
  intro idxs
  induction idxs with
  | nil => intro net s d; rfl
  | cons j rest ih =>
    intro net s d
    rw [parallelWire, ih]
    rfl

theorem parallelWire_length {α : Type} :
    ∀ (idxs : List Nat) (net : FlowNet α) (s : Nat) (d : Option Nat),
      (parallelWire net s d idxs).nodes.length = net.nodes.length := by
  intro idxs
  induction idxs with
  | nil => intro net s d; rfl
  | cons j rest ih =>
    intro net s d
    rw [parallelWire, ih, connect_length, connect_length]

theorem parallelWire_get?_out {α : Type} :
    ∀ (idxs : List Nat) (net : FlowNet α) (s : Nat) (d : Option Nat) (k : Nat),
      k ≠ s → k ∉ idxs →
      (parallelWire net s d idxs).nodes.get? k = net.nodes.get? k := by
  intro idxs
  induction idxs with
  | nil => intro net s d k _ _; rfl
  | cons j rest ih =>
    intro net s d k hks hkm
    rw [parallelWire,
      ih _ s d k hks (fun hm => hkm (List.mem_cons_of_mem _ hm)),
      connect_nodes_get?_ne _ _ _ _
        (by
          intro hkj
          exact hkm (by rw [hkj]; exact List.mem_cons_self _ _)),
      connect_nodes_get?_ne _ _ _ _ hks]

theorem parallelWire_get?_branch {α : Type} :
    ∀ (idxs : List Nat) (net : FlowNet α) (s : Nat) (d : Option Nat) (k : Nat),
      k ≠ s → idxs.Nodup → k ∈ idxs → k < net.nodes.length →
      (parallelWire net s d idxs).nodes.get? k =
        (net.nodes.get? k).map (fun nd => ⟨nd.proc, addOut nd.outs d⟩) := by
  intro idxs
  induction idxs with
  | nil => intro net s d k _ _ hk; simp at hk
  | cons j rest ih =>
    intro net s d k hks hnd hkm hlen
    by_cases hkj : k = j
    · subst hkj
      have hknr : k ∉ rest := (List.nodup_cons.mp hnd).1
      rw [parallelWire, parallelWire_get?_out rest _ s d k hks hknr,
        connect_nodes_get?_self _ _ _
          (by rw [connect_length]; exact hlen),
        connect_nodes_get?_ne _ _ _ _ hks]
    · rw [parallelWire,
        ih _ s d k hks (List.nodup_cons.mp hnd).2
          ((List.mem_cons.mp hkm).resolve_left hkj)
          (by rw [connect_length, connect_length]; exact hlen),
        connect_nodes_get?_ne _ _ _ _ hkj,
        connect_nodes_get?_ne _ _ _ _ hks]

theorem parallelWire_get?_src {α : Type} :
    ∀ (idxs : List Nat) (net : FlowNet α) (s : Nat) (d : Option Nat),
      s ∉ idxs → s < net.nodes.length →
      (parallelWire net s d idxs).nodes.get? s =
        (net.nodes.get? s).map (fun nd =>
          ⟨nd.proc, (idxs.map some).foldl addOut nd.outs⟩) := by
  intro idxs
  induction idxs with
  | nil =>
    intro net s d _ hlen
    have hw : (parallelWire net s d []).nodes.get? s = net.nodes.get? s := rfl
    rw [hw, List.get?_eq_get hlen]
    rfl
  | cons j rest ih =>
    intro net s d hsm hlen
    have hsj : s ≠ j := fun h => hsm (h ▸ List.mem_cons_self _ _)
    rw [parallelWire,
      ih _ s d (fun hm => hsm (List.mem_cons_of_mem _ hm))
        (by rw [connect_length, connect_length]; exact hlen),
      connect_nodes_get?_ne _ _ _ _ hsj,
      connect_nodes_get?_self _ _ _ hlen]
    rw [List.get?_eq_get hlen]
    rfl

theorem foldl_addOut_of_nodup :
    ∀ (js acc : List (Option Nat)), (acc ++ js).Nodup →
      js.foldl addOut acc = acc ++ js := by
  intro js
  induction js with
  | nil => intro acc _; simp
  | cons j rest ih =>
    intro acc h
    have hj : j ∉ acc := by
      intro hmem
      exact (List.disjoint_of_nodup_append h) hmem (List.mem_cons_self _ _)
    rw [List.foldl_cons, show addOut acc j = acc ++ [j] from by
        rw [addOut, if_neg hj],
      ih (acc ++ [j]) (by rwa [← List.append_cons])]
    simp

theorem compileLine_parallel_nil {α : Type} (src dst : String)
    (hne : src ≠ dst) :
    compileLine (emptyNet (α := α)) (parallelLine src dst []) =
      some ⟨[⟨pipeProc, []⟩, ⟨pipeProc, []⟩], [(src, 0), (dst, 1)]⟩ := by
  rw [parallelLine, compileLine]
  rw [dif_neg (by simp)]
  dsimp only
  simp only [List.dropLast, List.getLast]
  have hs : resolveSource (emptyNet (α := α)) (FlowElem.pipe src) =
      (⟨[⟨pipeProc, []⟩], [(src, 0)]⟩, some 0) := rfl
  have hd : resolveDest (⟨[⟨pipeProc, []⟩], [(src, 0)]⟩ : FlowNet α)
      (FlowElem.pipe dst) =
      (⟨[⟨pipeProc, []⟩, ⟨pipeProc, []⟩], [(src, 0), (dst, 1)]⟩, some 1) := by
    rw [resolveDest]
    simp only [getPipe, findA]
    rw [if_neg hne]
    rfl
  rw [hs, hd]
  rfl

theorem compileLine_parallel {α : Type} (src dst : String) (hne : src ≠ dst)
    (t0 : α → α) (ts' : List (α → α)) :
    compileLine (emptyNet (α := α)) (parallelLine src dst (t0 :: ts')) =
      some (parallelWire
        (⟨[⟨pipeProc, []⟩, ⟨pipeProc, []⟩] ++
            (t0 :: ts').map (fun f => ⟨pureProc f, []⟩),
          [(src, 0), (dst, 1)]⟩ : FlowNet α)
        0 (some 1) (List.range' 2 (ts'.length + 1))) := by
  rw [parallelLine, compileLine]
  rw [dif_neg (by simp)]
  dsimp only
  simp only [List.dropLast, List.getLast]
  have hs : resolveSource (emptyNet (α := α)) (FlowElem.pipe src) =
      (⟨[⟨pipeProc, []⟩], [(src, 0)]⟩, some 0) := rfl
  have hd : resolveDest (⟨[⟨pipeProc, []⟩], [(src, 0)]⟩ : FlowNet α)
      (FlowElem.pipe dst) =
      (⟨[⟨pipeProc, []⟩, ⟨pipeProc, []⟩], [(src, 0), (dst, 1)]⟩, some 1) := by
    rw [resolveDest]
    simp only [getPipe, findA]
    rw [if_neg hne]
    rfl
  rw [hs, hd, List.map_cons]
  dsimp only
  obtain ⟨ha1, ha2⟩ := addSeriesNodes_spec
    (List.map FlowElem.fn (pureProc t0 :: List.map pureProc ts'))
    (⟨[⟨pipeProc, []⟩, ⟨pipeProc, []⟩], [(src, 0), (dst, 1)]⟩ : FlowNet α)
  rw [ha1, ha2]
  simp only [List.map_cons, List.map_map, List.length_map, List.length_cons]
  rfl

theorem parallelNet_spec {α : Type} (src dst : String) (hne : src ≠ dst)
    (t0 : α → α) (ts' : List (α → α)) :
    ∃ net : FlowNet α,
      flowCompile [parallelLine src dst (t0 :: ts')] = some net ∧
      net.pipes = [(src, 0), (dst, 1)] ∧
      net.nodes.get? 0 =
        some ⟨pipeProc, (List.range' 2 (ts'.length + 1)).map some⟩ ∧
      net.nodes.get? 1 = some ⟨pipeProc, []⟩ ∧
      (∀ k (hk : k < ts'.length + 1),
        net.nodes.get? (2 + k) =
          some ⟨pureProc ((t0 :: ts').get ⟨k, by simpa using hk⟩),
            [some 1]⟩) := by
  refine ⟨parallelWire
      (⟨[⟨pipeProc, []⟩, ⟨pipeProc, []⟩] ++
          (t0 :: ts').map (fun f => ⟨pureProc f, []⟩),
        [(src, 0), (dst, 1)]⟩ : FlowNet α)
      0 (some 1) (List.range' 2 (ts'.length + 1)), ?_, ?_, ?_, ?_, ?_⟩
  · rw [flowCompile, compileGraph, compileLine_parallel src dst hne]
    rfl
  · rw [parallelWire_pipes]
  · rw [parallelWire_get?_src _ _ _ _
      (by
        intro hm
        have := List.mem_range'_1.mp hm
        omega)
      (by simp)]
    rw [show (((⟨[⟨pipeProc, []⟩, ⟨pipeProc, []⟩] ++
          (t0 :: ts').map (fun f => ⟨pureProc f, []⟩),
        [(src, 0), (dst, 1)]⟩ : FlowNet α)).nodes.get? 0) =
        some ⟨pipeProc, []⟩ from rfl]
    have hfold : ((List.range' 2 (ts'.length + 1)).map some).foldl addOut
          ([] : List (Option Nat)) =
        (List.range' 2 (ts'.length + 1)).map some := by
      have hf := foldl_addOut_of_nodup
        ((List.range' 2 (ts'.length + 1)).map some) [] (by
          rw [List.nil_append]
          exact ((List.nodup_range' _ _).map
            (fun a b h => Option.some.inj h)))
      simpa using hf
    simp [hfold]
  · rw [parallelWire_get?_out _ _ _ _ _ (by omega)
      (by
        intro hm
        have := List.mem_range'_1.mp hm
        omega)]
    rfl
  · intro k hk
    rw [parallelWire_get?_branch _ _ _ _ _ (by omega)
      (List.nodup_range' _ _)
      (List.mem_range'_1.mpr (by omega))
      (by simp; omega)]
    have hbase : ((⟨[⟨pipeProc, []⟩, ⟨pipeProc, []⟩] ++
          (t0 :: ts').map (fun f => ⟨pureProc f, []⟩),
        [(src, 0), (dst, 1)]⟩ : FlowNet α)).nodes.get? (2 + k) =
        some ⟨pureProc ((t0 :: ts').get ⟨k, by simpa using hk⟩), []⟩ := by
      rw [show (2 + k : Nat) = k + 2 from by omega]
      show ((t0 :: ts').map
        (fun f => ({ proc := pureProc f, outs := [] } : FlowNode α))).get? k = _
      rw [List.get?_map, List.get?_eq_get (by simpa using hk)]
      rfl
    rw [hbase]
    rfl

theorem bind_map_some {α : Type} (net : FlowNet α) (fuel : Nat) (p : α) :
    ∀ l : List Nat,
      (l.map some).bind (fun j? => match j? with
        | some j => runNode net fuel j p
        | none => ([] : List (Nat × α))) =
      l.bind (fun j => runNode net fuel j p) := by
  intro l
  induction l with
  | nil => rfl
  | cons j rest ih => simp only [List.map_cons, List.cons_bind, ih]

theorem runNode_fan {α : Type} (net : FlowNet α) (P : α)
    (h1 : net.nodes.get? 1 = some ⟨pipeProc, []⟩) :
    ∀ (us : List (α → α)) (c : Nat),
      (∀ k (hk : k < us.length), net.nodes.get? (c + k) =
        some ⟨pureProc (us.get ⟨k, hk⟩), [some 1]⟩) →
      (List.range' c us.length).bind (fun j => runNode net 2 j P) =
        fanTrace P c us := by
  intro us
  induction us with
  | nil => intro c _; rfl
  | cons f fs ih =>
    intro c hnodes
    have h0 := hnodes 0 (by simp)
    rw [Nat.add_zero] at h0
    have hbranch : runNode net 2 c P = [(c, P), (1, f P)] := by
      rw [show (2 : Nat) = 1 + 1 from rfl,
        runNode_pure_step net c 1 1 f P (by simpa using h0),
        runNode_pipe_end net 1 0 (f P) h1]
    rw [show (f :: fs).length = fs.length + 1 from rfl, List.range'_succ,
      bind_cons_eq, hbranch,
      ih (c + 1) (by
        intro k hk
        have hh := hnodes (k + 1) (by simpa using hk)
        rw [show c + (k + 1) = c + 1 + k from by omega] at hh
        rw [hh]
        rfl)]
    rfl

theorem runNode_parallel {α : Type} (net : FlowNet α) (P : α)
    (us : List (α → α))
    (h0 : net.nodes.get? 0 =
      some ⟨pipeProc, (List.range' 2 us.length).map some⟩)
    (h1 : net.nodes.get? 1 = some ⟨pipeProc, []⟩)
    (hn : ∀ k (hk : k < us.length), net.nodes.get? (2 + k) =
      some ⟨pureProc (us.get ⟨k, hk⟩), [some 1]⟩) :
    runNode net 3 0 P = (0, P) :: fanTrace P 2 us := by
  rw [show (3 : Nat) = 2 + 1 from rfl, runNode, h0]
  show (0, P) :: (pipeProc P).bind _ = _
  rw [show (pipeProc P : List α) = [P] from rfl, bind_cons_eq, bind_nil_eq,
    List.append_nil]
  show (0, P) :: ((List.range' 2 us.length).map some).bind _ = _
  rw [bind_map_some net 2 P (List.range' 2 us.length),
    runNode_fan net P h1 us 2 hn]

theorem observedAt_fanTrace_out {α : Type} (P : α) :
    ∀ (us : List (α → α)) (c j : Nat), j ≠ 1 → j < c →
      observedAt (fanTrace P c us) j = [] := by
  intro us
  induction us with
  | nil => intro c j _ _; rfl
  | cons f fs ih =>
    intro c j hj1 hjc
    rw [fanTrace, observedAt_cons_ne _ _ _ _ (by omega),
      observedAt_cons_ne _ _ _ _ (fun h => hj1 h.symm)]
    exact ih (c + 1) j hj1 (by omega)

theorem observedAt_fanTrace_dst {α : Type} (P : α) :
    ∀ (us : List (α → α)) (c : Nat), 2 ≤ c →
      observedAt (fanTrace P c us) 1 = us.map (fun f => f P) := by
  intro us
  induction us with
  | nil => intro c _; rfl
  | cons f fs ih =>
    intro c hc
    rw [fanTrace, observedAt_cons_ne _ _ _ _ (by omega),
      observedAt_cons_self, ih (c + 1) (by omega)]
    rfl

theorem observedAt_fanTrace_at {α : Type} (P : α) :
    ∀ (us : List (α → α)) (c : Nat) (k : Nat), 2 ≤ c → k < us.length →
      observedAt (fanTrace P c us) (c + k) = [P] := by
  intro us
  induction us with
  | nil => intro c k _ hk; simp at hk
  | cons f fs ih =>
    intro c k hc hk
    cases k with
    | zero =>
      rw [Nat.add_zero, fanTrace, observedAt_cons_self,
        observedAt_cons_ne _ _ _ _ (by omega),
        observedAt_fanTrace_out P fs (c + 1) c (by omega) (by omega)]
    | succ k =>
      rw [fanTrace, observedAt_cons_ne _ _ _ _ (by omega),
        observedAt_cons_ne _ _ _ _ (by omega),
        show c + (k + 1) = c + 1 + k from by omega]
      exact ih (c + 1) k (by omega) (by simpa using hk)

/-- C2: a single bracketed interior of N transforms is wired as a
parallel block — every transform observes exactly one copy of the
injected packet, and the destination observes one packet per branch
(in branch order, each branch output), hence exactly N packets. -/
theorem flow_parallel_fanout {α : Type} (src dst : String) (hne : src ≠ dst)
    (ts : List (α → α)) (P : α) :
    ∃ net : FlowNet α,
      flowCompile [parallelLine src dst ts] = some net ∧
      findA net.pipes src = some 0 ∧
      findA net.pipes dst = some 1 ∧
      (∀ k, k < ts.length →
        observedAt (runNode net 3 0 P) (k + 2) = [P]) ∧
      observedAt (runNode net 3 0 P) 1 = ts.map (fun f => f P) ∧
      (observedAt (runNode net 3 0 P) 1).length = ts.length := by
  cases ts with
  | nil =>
    refine ⟨⟨[⟨pipeProc, []⟩, ⟨pipeProc, []⟩], [(src, 0), (dst, 1)]⟩,
      ?_, ?_, ?_, ?_, ?_, ?_⟩
    · rw [flowCompile, compileGraph, compileLine_parallel_nil src dst hne]
      rfl
    · simp [findA]
    · simp [findA, hne]
    · intro k hk
      simp at hk
    · rfl
    · rfl
  | cons t0 ts' =>
    obtain ⟨net, hcomp, hpipes, h0, h1, hchain⟩ :=
      parallelNet_spec src dst hne t0 ts'
    have htr : runNode net 3 0 P = (0, P) :: fanTrace P 2 (t0 :: ts') := by
      refine runNode_parallel net P (t0 :: ts') (by simpa using h0) h1 ?_
      intro k hk
      rw [hchain k (by simpa using hk)]
    have hdst : observedAt (runNode net 3 0 P) 1 =
        (t0 :: ts').map (fun f => f P) := by
      rw [htr, observedAt_cons_ne _ _ _ _ (by omega),
        observedAt_fanTrace_dst P (t0 :: ts') 2 (by omega)]
    refine ⟨net, hcomp, ?_, ?_, ?_, hdst, ?_⟩
    · rw [hpipes]
      simp [findA]
    · rw [hpipes]
      simp [findA, hne]
    · intro k hk
      rw [htr, observedAt_cons_ne _ _ _ _ (by omega),
        show (k + 2 : Nat) = 2 + k from by omega]
      exact observedAt_fanTrace_at P (t0 :: ts') 2 k (by omega)
        (by simpa using hk)
    · rw [hdst, List.length_map]

theorem flow_parallel_fanout_witness :
    ("in" : String) ≠ "out" ∧
    (∃ net : FlowNet Nat,
      flowCompile [parallelLine "in" "out"
        ([fun x => x + 1, fun x => x * 2, fun x => x] :
          List (Nat → Nat))] = some net ∧
      findA net.pipes "in" = some 0 ∧
      findA net.pipes "out" = some 1 ∧
      (∀ k, k < ([fun x => x + 1, fun x => x * 2, fun x => x] :
          List (Nat → Nat)).length →
        observedAt (runNode net 3 0 5) (k + 2) = [5]) ∧
      observedAt (runNode net 3 0 5) 1 =
        ([fun x => x + 1, fun x => x * 2, fun x => x] :
          List (Nat → Nat)).map (fun f => f 5) ∧
      (observedAt (runNode net 3 0 5) 1).length =
        ([fun x => x + 1, fun x => x * 2, fun x => x] :
          List (Nat → Nat)).length) :=
  ⟨by decide, flow_parallel_fanout "in" "out" (by decide)
    ([fun x => x + 1, fun x => x * 2, fun x => x] : List (Nat → Nat)) 5⟩


theorem pipesWF_mono {α : Type} {net net' : FlowNet α}
    (hp : net'.pipes = net.pipes)
    (hl : net.nodes.length ≤ net'.nodes.length) :
    PipesWF net → PipesWF net' := by
  intro h
  obtain ⟨h1, h2, h3⟩ := h
  refine ⟨hp ▸ h1, hp ▸ h2, ?_⟩
  intro e he
  rw [hp] at he
  exact lt_of_lt_of_le (h3 e he) hl

theorem connect_wf {α : Type} (net : FlowNet α) (i : Nat) (j : Option Nat)
    (h : PipesWF net) : PipesWF (connect net i j) :=
  pipesWF_mono (connect_pipes net i j) (le_of_eq (connect_length net i j).symm) h

theorem makeNode_wf {α : Type} (net : FlowNet α) (p : α → List α)
    (h : PipesWF net) : PipesWF (makeNode net p).1 := by
  refine pipesWF_mono (show (makeNode net p).1.pipes = net.pipes from rfl)
    ?_ h
  simp [makeNode]

theorem chainConnect_wf {α : Type} (net : FlowNet α) (idxs : List Nat)
    (h : PipesWF net) : PipesWF (chainConnect net idxs) :=
  pipesWF_mono (chainConnect_pipes idxs net)
    (le_of_eq (chainConnect_length idxs net).symm) h

theorem parallelWire_wf {α : Type} (net : FlowNet α) (s : Nat)
    (d : Option Nat) (idxs : List Nat) (h : PipesWF net) :
    PipesWF (parallelWire net s d idxs) :=
  pipesWF_mono (parallelWire_pipes idxs net s d)
    (le_of_eq (parallelWire_length idxs net s d).symm) h

theorem addSeriesNodes_wf {α : Type} (net : FlowNet α)
    (es : List (FlowElem α)) (h : PipesWF net) :
    PipesWF (addSeriesNodes net es).1 := by
  obtain ⟨hn, _⟩ := addSeriesNodes_spec es net
  refine pipesWF_mono ?_ ?_ h
  · rw [hn]
  · rw [hn]
    simp

theorem buildSeries_wf {α : Type} (net : FlowNet α) (fs : List (FlowElem α))
    (h : PipesWF net) : PipesWF (buildSeries net fs).1 := by
  cases fs with
  | nil => exact makeNode_wf net _ h
  | cons e es =>
    exact chainConnect_wf _ _ (addSeriesNodes_wf net (e :: es) h)

theorem getPipe_wf {α : Type} (net : FlowNet α) (name : String)
    (h : PipesWF net) : PipesWF (getPipe net name).1 := by
  obtain ⟨h1, h2, h3⟩ := h
  rw [getPipe]
  cases hf : findA net.pipes name with
  | some i => exact ⟨h1, h2, h3⟩
  | none =>
    have hname : name ∉ net.pipes.map Prod.fst :=
      (findA_eq_none_iff net.pipes name).mp hf
    show PipesWF ⟨net.nodes ++ [⟨pipeProc, []⟩],
      net.pipes ++ [(name, net.nodes.length)]⟩
    refine ⟨?_, ?_, ?_⟩
    · show ((net.pipes ++ [(name, net.nodes.length)]).map Prod.fst).Nodup
      rw [List.map_append]
      refine List.nodup_append.mpr ⟨h1, by simp, ?_⟩
      intro a ha hb
      simp only [List.map_cons, List.map_nil, List.mem_singleton] at hb
      subst hb
      exact hname ha
    · show ((net.pipes ++ [(name, net.nodes.length)]).map Prod.snd).Nodup
      rw [List.map_append]
      refine List.nodup_append.mpr ⟨h2, by simp, ?_⟩
      intro v hv hb
      simp only [List.map_cons, List.map_nil, List.mem_singleton] at hb
      subst hb
      obtain ⟨e, he, hev⟩ := List.mem_map.mp hv
      have := h3 e he
      omega
    · intro e he
      rw [List.mem_append] at he
      show e.2 < (net.nodes ++ [(⟨pipeProc, []⟩ : FlowNode α)]).length
      rw [List.length_append]
      rcases he with he | he
      · have := h3 e he
        simp only [List.length_singleton]
        omega
      · rw [List.mem_singleton] at he
        subst he
        simp

theorem resolveSource_wf {α : Type} (net : FlowNet α) (e : FlowElem α)
    (h : PipesWF net) : PipesWF (resolveSource net e).1 := by
  cases e with
  | pipe name => exact getPipe_wf net name h
  | fn f => exact makeNode_wf net _ h
  | arr fs => exact h
  | junk => exact h

theorem resolveDest_wf {α : Type} (net : FlowNet α) (e : FlowElem α)
    (h : PipesWF net) : PipesWF (resolveDest net e).1 := by
  cases e with
  | pipe name => exact getPipe_wf net name h
  | fn f => exact makeNode_wf net _ h
  | arr fs => exact h
  | junk => exact h

theorem emptyNet_wf {α : Type} : PipesWF (emptyNet (α := α)) := by
  refine ⟨by simp [emptyNet], by simp [emptyNet], ?_⟩
  intro e he
  simp [emptyNet] at he

theorem compileLine_wf {α : Type} (net net' : FlowNet α) (l : FlowLine α)
    (hc : compileLine net l = some net') (h : PipesWF net) : PipesWF net' := by
  cases l with
  | notArray =>
    exact (Option.some.inj hc) ▸ h
  | line elems =>
    by_cases hlen : elems.length < 2
    · rw [compileLine, dif_pos hlen] at hc
      exact (Option.some.inj hc) ▸ h
    · rw [compileLine, dif_neg hlen] at hc
      cases elems with
      | nil => simp at hlen
      | cons e rest =>
        dsimp only at hc
        rcases hmid : rest.dropLast with _ | ⟨me, mrest⟩
        · rw [hmid] at hc
          dsimp only at hc
          cases hs2 : (resolveSource net e).2 with
          | none =>
            rw [hs2] at hc
            exact Option.noConfusion hc
          | some i =>
            rw [hs2] at hc
            exact (Option.some.inj hc) ▸
              connect_wf _ _ _ (resolveDest_wf _ _ (resolveSource_wf _ _ h))
        · rw [hmid] at hc
          cases me with
          | pipe name =>
            dsimp only at hc
            cases hs2 : (resolveSource net e).2 with
            | none =>
              rw [hs2] at hc
              exact Option.noConfusion hc
            | some i =>
              rw [hs2] at hc
              exact (Option.some.inj hc) ▸
                connect_wf _ _ _ (connect_wf _ _ _ (buildSeries_wf _ _
                  (resolveDest_wf _ _ (resolveSource_wf _ _ h))))
          | fn f =>
            dsimp only at hc
            cases hs2 : (resolveSource net e).2 with
            | none =>
              rw [hs2] at hc
              exact Option.noConfusion hc
            | some i =>
              rw [hs2] at hc
              exact (Option.some.inj hc) ▸
                connect_wf _ _ _ (connect_wf _ _ _ (buildSeries_wf _ _
                  (resolveDest_wf _ _ (resolveSource_wf _ _ h))))
          | junk =>
            dsimp only at hc
            cases hs2 : (resolveSource net e).2 with
            | none =>
              rw [hs2] at hc
              exact Option.noConfusion hc
            | some i =>
              rw [hs2] at hc
              exact (Option.some.inj hc) ▸
                connect_wf _ _ _ (connect_wf _ _ _ (buildSeries_wf _ _
                  (resolveDest_wf _ _ (resolveSource_wf _ _ h))))
          | arr fs =>
            cases mrest with
            | cons m1 m2 =>
              dsimp only at hc
              cases hs2 : (resolveSource net e).2 with
              | none =>
                rw [hs2] at hc
                exact Option.noConfusion hc
              | some i =>
                rw [hs2] at hc
                exact (Option.some.inj hc) ▸
                  connect_wf _ _ _ (connect_wf _ _ _ (buildSeries_wf _ _
                    (resolveDest_wf _ _ (resolveSource_wf _ _ h))))
            | nil =>
              dsimp only at hc
              cases fs with
              | nil =>
                exact (Option.some.inj hc) ▸ addSeriesNodes_wf _ _
                  (resolveDest_wf _ _ (resolveSource_wf _ _ h))
              | cons f0 fs' =>
                cases hs2 : (resolveSource net e).2 with
                | none =>
                  rw [hs2] at hc
                  exact Option.noConfusion hc
                | some i =>
                  rw [hs2] at hc
                  exact (Option.some.inj hc) ▸ parallelWire_wf _ _ _ _
                    (addSeriesNodes_wf _ _
                      (resolveDest_wf _ _ (resolveSource_wf _ _ h)))

theorem compileGraph_wf {α : Type} :
    ∀ (g : List (FlowLine α)) (net net' : FlowNet α),
      compileGraph net g = some net' → PipesWF net → PipesWF net' := by
  intro g
  induction g with
  | nil =>
    intro net net' hc h
    exact (Option.some.inj hc) ▸ h
  | cons l rest ih =>
    intro net net' hc h
    rw [compileGraph] at hc
    cases hl : compileLine net l with
    | none =>
      rw [hl] at hc
      exact Option.noConfusion hc
    | some net1 =>
      rw [hl] at hc
      exact ih net1 net' hc (compileLine_wf net net1 l hl h)

theorem flowCompile_wf {α : Type} (g : List (FlowLine α)) (net : FlowNet α)
    (hc : flowCompile g = some net) : PipesWF net :=
  compileGraph_wf g emptyNet net hc emptyNet_wf

/-- C6: in a compiled net, the name-to-pipe registry is a bijection: a
name already registered resolves through `getPipe` to its recorded
node without creating anything, no name maps to two nodes, no two
names share a node, and a packet injected at a name's node is the
first packet every listener at that name observes — regardless of
which reference resolved the node. -/
theorem pipe_name_bijection {α : Type} (g : List (FlowLine α))
    (net : FlowNet α) (hc : flowCompile g = some net) :
    (∀ name i, findA net.pipes name = some i → getPipe net name = (net, i)) ∧
    (∀ name i j, (name, i) ∈ net.pipes → (name, j) ∈ net.pipes → i = j) ∧
    (∀ n1 n2 i, (n1, i) ∈ net.pipes → (n2, i) ∈ net.pipes → n1 = n2) ∧
    (∀ name i (P : α) fuel, findA net.pipes name = some i →
      (observedAt (runNode net (fuel + 1) i P) i).head? = some P) := by
  have hwf := flowCompile_wf g net hc
  obtain ⟨h1, h2, h3⟩ := hwf
  refine ⟨?_, ?_, ?_, ?_⟩
  · intro name i hf
    rw [getPipe, hf]
  · intro name i j hi hj
    have := List.inj_on_of_nodup_map h1 hi hj (by rfl)
    exact congrArg Prod.snd this
  · intro n1 n2 i hi hj
    have := List.inj_on_of_nodup_map h2 hi hj (by rfl)
    exact congrArg Prod.fst this
  · intro name i P fuel hf
    have hmem := findA_mem net.pipes name i hf
    have hlt : i < net.nodes.length := h3 (name, i) hmem
    rw [runNode, List.get?_eq_get hlt]
    show ((observedAt ((i, P) :: _) i).head? = some P)
    rw [observedAt_cons_self]
    rfl

theorem pipe_name_bijection_witness :
    getPipe (⟨[⟨pipeProc, [some 1]⟩, ⟨pipeProc, [some 2]⟩, ⟨pipeProc, []⟩],
        [("a", 0), ("b", 1), ("c", 2)]⟩ : FlowNet Nat) "b" =
      (⟨[⟨pipeProc, [some 1]⟩, ⟨pipeProc, [some 2]⟩, ⟨pipeProc, []⟩],
        [("a", 0), ("b", 1), ("c", 2)]⟩, 1) ∧
    (observedAt (runNode
      (⟨[⟨pipeProc, [some 1]⟩, ⟨pipeProc, [some 2]⟩, ⟨pipeProc, []⟩],
        [("a", 0), ("b", 1), ("c", 2)]⟩ : FlowNet Nat) 3 1 7) 1).head? =
      some 7 :=
  ⟨(pipe_name_bijection
      [FlowLine.line [FlowElem.pipe "a", FlowElem.pipe "b"],
       FlowLine.line [FlowElem.pipe "b", FlowElem.pipe "c"]] _ rfl).1
    "b" 1 rfl,
   (pipe_name_bijection
      [FlowLine.line [FlowElem.pipe "a", FlowElem.pipe "b"],
       FlowLine.line [FlowElem.pipe "b", FlowElem.pipe "c"]] _ rfl).2.2.2
    "b" 1 7 2 rfl⟩


/-- C7 counterexample: a line whose first element is unrecognized (a
number, `null`, ...) is not skipped — resolving it leaves `source`
undefined and the wiring loop's `source.connect` access throws a
`TypeError`, aborting `flow` before the following well-formed line is
processed. -/
theorem malformed_line_not_skipped :
    flowCompile [FlowLine.line [FlowElem.junk, FlowElem.pipe "out"],
        FlowLine.line [FlowElem.pipe "a", FlowElem.pipe "b"]] =
      (none : Option (FlowNet Nat)) := rfl

/-- C7 (amended): lines with wrong arity — a non-array line or an
array of fewer than two elements — are skipped, and compilation of the
remaining lines proceeds unaffected; but an unrecognized *first*
element aborts compilation of the whole graph with a thrown
`TypeError`, and an unrecognized *last* element is not skipped either:
the line compiles with a dangling (undefined) destination. -/
theorem malformed_line_handling {α : Type} (net : FlowNet α) :
    (∀ rest : List (FlowLine α),
      compileGraph net (FlowLine.notArray :: rest) = compileGraph net rest) ∧
    (∀ elems : List (FlowElem α), elems.length < 2 →
      ∀ rest : List (FlowLine α),
        compileGraph net (FlowLine.line elems :: rest) =
          compileGraph net rest) ∧
    (∀ (e : FlowElem α) (rest : List (FlowLine α)),
      compileGraph net (FlowLine.line [FlowElem.junk, e] :: rest) = none) ∧
    (∀ src : String,
      (compileLine net
        (FlowLine.line [FlowElem.pipe src, FlowElem.junk])).isSome = true) := by
  refine ⟨?_, ?_, ?_, ?_⟩
  · intro rest
    rfl
  · intro elems hlen rest
    rw [compileGraph, compileLine, dif_pos hlen]
  · intro e rest
    have hline : compileLine net (FlowLine.line [FlowElem.junk, e]) =
        none := by
      rw [compileLine, dif_neg (by simp)]
      rfl
    rw [compileGraph, hline]
  · intro src
    rw [compileLine, dif_neg (by simp)]
    rfl

theorem malformed_line_handling_witness :
    ((compileGraph (emptyNet : FlowNet Nat)
        [FlowLine.line [FlowElem.pipe "solo"],
         FlowLine.line [FlowElem.pipe "a", FlowElem.pipe "b"]] =
      compileGraph (emptyNet : FlowNet Nat)
        [FlowLine.line [FlowElem.pipe "a", FlowElem.pipe "b"]]) ∧
      (compileGraph (emptyNet : FlowNet Nat)
        [FlowLine.line [FlowElem.junk, FlowElem.pipe "out"],
         FlowLine.line [FlowElem.pipe "a", FlowElem.pipe "b"]] = none) ∧
      ((compileLine (emptyNet : FlowNet Nat)
        (FlowLine.line [FlowElem.pipe "in", FlowElem.junk])).isSome = true)) :=
  ⟨(malformed_line_handling (emptyNet : FlowNet Nat)).2.1
      [FlowElem.pipe "solo"] (by decide)
      [FlowLine.line [FlowElem.pipe "a", FlowElem.pipe "b"]],
   (malformed_line_handling (emptyNet : FlowNet Nat)).2.2.1
      (FlowElem.pipe "out")
      [FlowLine.line [FlowElem.pipe "a", FlowElem.pipe "b"]],
   (malformed_line_handling (emptyNet : FlowNet Nat)).2.2.2 "in"⟩


end Lulz
